/-
Verification of the package-spec-schema generator against its design
specification.

The development shallowly embeds the Go sources of the generator
(main.go: spec collection, YAML-to-JSON-Schema conversion, the recursive
patch pass, manifest synthesis; git.go: version discovery and labels) as
Lean definitions.  Strings are modelled as lists of characters (Go strings
are byte slices; every literal involved is ASCII, where the two agree).
Go maps decoded from YAML are modelled as association lists with the
usual unique-key reading; `map[string]any` values are the inductive
`JSONValue`.  Functions returning `(T, error)` in Go are embedded as
`Except Str T`.
-/
import Mathlib

/-- Strings, modelled as lists of characters. -/
abbrev Str := List Char

/-- Go `strings.Replace(s, pat, rep, 1)` for a non-empty pattern `pat`:
replace the leftmost occurrence of `pat` in `s` by `rep`, if any. -/
def replaceFirst (s : Str) (pat rep : Str) : Str :=
  match s with
  | [] => []
  | c :: rest =>
    if pat.isPrefixOf (c :: rest) then rep ++ (c :: rest).drop pat.length
    else c :: replaceFirst rest pat rep

/-- Go `strings.ReplaceAll(s, "^", "%5E")`: rewrite every caret to the
percent-encoded form, leaving all other characters unchanged. -/
def encodeCarets : Str → Str
  | [] => []
  | c :: rest => (if c = '^' then "%5E".data else [c]) ++ encodeCarets rest

/-- Byte-lexicographic strict order on strings, as Go `a < b` compares
strings (agreeing with code-point order on the ASCII data involved). -/
def strLt : Str → Str → Bool
  | [], [] => false
  | [], _ :: _ => true
  | _ :: _, [] => false
  | a :: as, b :: bs => a < b || (a = b && strLt as bs)

/-- Non-strict counterpart of `strLt`. -/
def strLe (a b : Str) : Bool := !(strLt b a)

/-- Values decoded from YAML/JSON: the shallow embedding of Go
`interface{}` values produced by `yaml.Decoder` (`map[string]any`,
`[]any`, `string`, `bool`, numbers, `nil`). -/
inductive JSONValue where
  | null
  | bool (b : Bool)
  | num (n : Int)
  | str (s : Str)
  | arr (items : List JSONValue)
  | obj (entries : List (Str × JSONValue))

/-- Go `%T` rendering of the dynamic type of a decoded value, as used in
the `"spec is not an object, got %T"` error (numbers decode as `int`
here; the float case is irrelevant to the claims). -/
def goTypeName : JSONValue → Str
  | .null => "<nil>".data
  | .bool _ => "bool".data
  | .num _ => "int".data
  | .str _ => "string".data
  | .arr _ => "[]interface {}".data
  | .obj _ => "map[string]interface {}".data

/-- Lookup in a string-keyed Go map (association-list model): `m[k]`
with its `ok` flag becomes an `Option`. -/
def lookupKey {α : Type} (es : List (Str × α)) (k : Str) : Option α :=
  match es with
  | [] => none
  | (k0, v0) :: rest => if k0 = k then some v0 else lookupKey rest k

/-- Assignment `m[k] = v` on a string-keyed Go map: replace the binding
in place if the key is present, append it otherwise. -/
def setKey {α : Type} (es : List (Str × α)) (k : Str) (v : α) :
    List (Str × α) :=
  match es with
  | [] => [(k, v)]
  | (k0, v0) :: rest =>
    if k0 = k then (k, v) :: rest else (k0, v0) :: setKey rest k v

/-- Default of the `-d` flag: the JSON Schema dialect applied as
`$schema` to every produced document. -/
def dialect : Str := "https://json-schema.org/draft/2020-12/schema".data

/-- Default of the `-base-uri` flag. -/
def baseURI : Str := "https://schemas.elastic.dev/package-spec".data

/-- Source `schemaID`: joins the base URI, the version label and the
relative output path.  The source routes this through `net/url` parsing
and `path.Join`; for the compiled-in base URI (no trailing slash, clean
path) that equals the plain slash-join modelled here, and `url.Parse`
cannot fail on it, so the error return is dropped. -/
def schemaID (version relativePath : Str) : Str :=
  baseURI ++ '/' :: version ++ '/' :: relativePath

/-- Source `encodeURIFragment`.  The Go function splits at the first
`#` with `strings.SplitN(ref, "#", 2)`; when `#` occurs the split has
exactly two parts (base before the first `#`, fragment after it), so the
`len(parts) != 2` early return is unreachable and the split is modelled
with `takeWhile`/`dropWhile`.  Every return site carries a nil error. -/
def encodeURIFragment (ref : Str) : Except Str Str :=
  if ref.contains '#' = false then .ok ref
  else if (ref.dropWhile (fun c => c ≠ '#')).drop 1 = [] then .ok ref
  else .ok (ref.takeWhile (fun c => c ≠ '#')
    ++ '#' :: encodeCarets ((ref.dropWhile (fun c => c ≠ '#')).drop 1))

/-- The pure value computed by `encodeURIFragment` (whose error is nil at
every return site; the agreement is proved in `encodeURIFragment_ok`). -/
def encodeFragment (ref : Str) : Str :=
  if ref.contains '#' = false then ref
  else if (ref.dropWhile (fun c => c ≠ '#')).drop 1 = [] then ref
  else ref.takeWhile (fun c => c ≠ '#')
    ++ '#' :: encodeCarets ((ref.dropWhile (fun c => c ≠ '#')).drop 1)

/-- The `$ref` string rewrite performed by the patch pass: first-occurrence
suffix rewrite from `.spec.yml` to `.jsonschema.json`, then fragment
caret encoding (source lines of the `case "$ref"` branch). -/
def refPatch (s : Str) : Str :=
  encodeFragment (replaceFirst s ".spec.yml".data ".jsonschema.json".data)

mutual
/-- Source `patchSchemaInPlaceRecursive`: one recursive pass that removes
non-root `$id` keys, rewrites string `$ref` values, drops
`additionalProperties: true`, and recurses into the remaining values.
The Go function mutates the tree in place while ranging over the map
(deleting or reassigning only the key currently at hand, which Go
guarantees is observed by the iteration); the embedding rebuilds the
tree per entry instead, and returns the error exactly where the source
does. -/
def patchSchemaInPlaceRecursive (v : JSONValue) (isRoot : Bool) :
    Except Str JSONValue :=
  match v with
  | .obj es =>
    match patchEntriesE es isRoot with
    | .error e => .error e
    | .ok out => .ok (.obj out)
  | .arr xs =>
    match patchItemsE xs with
    | .error e => .error e
    | .ok out => .ok (.arr out)
  | v => .ok v

/-- Entry-wise body of the map case of `patchSchemaInPlaceRecursive`,
with the `isRoot` flag of the containing object. -/
def patchEntriesE (es : List (Str × JSONValue)) (isRoot : Bool) :
    Except Str (List (Str × JSONValue)) :=
  match es with
  | [] => .ok []
  | (k, v) :: rest =>
    match
      (if k = "$id".data then
        .ok (if isRoot then [(k, v)] else [])
      else if k = "$ref".data then
        match v with
        | .str refStr =>
          match encodeURIFragment
              (replaceFirst refStr ".spec.yml".data ".jsonschema.json".data) with
          | .error e => .error ("failed to encode $ref: ".data ++ e)
          | .ok r2 => .ok [(k, JSONValue.str r2)]
        | _ => .ok [(k, v)]
      else if k = "additionalProperties".data then
        match v with
        | .bool true => .ok []
        | _ =>
          match patchSchemaInPlaceRecursive v false with
          | .error e => .error e
          | .ok w => .ok [(k, w)]
      else
        match patchSchemaInPlaceRecursive v false with
        | .error e => .error e
        | .ok w => .ok [(k, w)] : Except Str (List (Str × JSONValue))) with
    | .error e => .error e
    | .ok head =>
      match patchEntriesE rest isRoot with
      | .error e => .error e
      | .ok tail => .ok (head ++ tail)

/-- Array case of `patchSchemaInPlaceRecursive`. -/
def patchItemsE (xs : List JSONValue) : Except Str (List JSONValue) :=
  match xs with
  | [] => .ok []
  | x :: rest =>
    match patchSchemaInPlaceRecursive x false with
    | .error e => .error e
    | .ok w =>
      match patchItemsE rest with
      | .error e => .error e
      | .ok tail => .ok (w :: tail)
end

/-- Source `patchSchemaInPlace`: the recursive pass started at the root. -/
def patchSchemaInPlace (v : JSONValue) : Except Str JSONValue :=
  patchSchemaInPlaceRecursive v true

mutual
/-- Pure value of `patchSchemaInPlaceRecursive` (which never actually
errors; the agreement is proved in `patchEntriesE_ok` and company). -/
def patchValue (v : JSONValue) (isRoot : Bool) : JSONValue :=
  match v with
  | .obj es => .obj (patchEntries es isRoot)
  | .arr xs => .arr (patchItems xs)
  | v => v

/-- Pure value of `patchEntriesE`. -/
def patchEntries (es : List (Str × JSONValue)) (isRoot : Bool) :
    List (Str × JSONValue) :=
  match es with
  | [] => []
  | (k, v) :: rest =>
    (if k = "$id".data then (if isRoot then [(k, v)] else [])
     else if k = "$ref".data then
       match v with
       | .str refStr => [(k, JSONValue.str (refPatch refStr))]
       | _ => [(k, v)]
     else if k = "additionalProperties".data then
       match v with
       | .bool true => []
       | _ => [(k, patchValue v false)]
     else [(k, patchValue v false)]) ++ patchEntries rest isRoot

/-- Pure value of `patchItemsE`. -/
def patchItems (xs : List JSONValue) : List JSONValue :=
  match xs with
  | [] => []
  | x :: rest => patchValue x false :: patchItems rest
end

/-- Source `patchSchema`: set `$schema` to the dialect, set the root
`$id` from `schemaID`, then run the recursive pass on the root map. -/
def patchSchema (version relativePath : Str)
    (spec : List (Str × JSONValue)) :
    Except Str (List (Str × JSONValue)) :=
  patchEntriesE (setKey (setKey spec "$schema".data (.str dialect))
    "$id".data (.str (schemaID version relativePath))) true

/-- Source `convertSpecYAMLToJSONSchema` after YAML decoding, with the
patching step abstracted as a parameter (instantiated with `patchSchema`
below): require the `spec` key, require it to be an object, then patch.
The final JSON serialisation of the patched map is not modelled; the
patched tree itself is returned. -/
def convertSpecYAMLToJSONSchemaWith
    (patchFn : Str → Str → List (Str × JSONValue) →
      Except Str (List (Str × JSONValue)))
    (path : Str) (m : List (Str × JSONValue)) (version : Str) :
    Except Str JSONValue :=
  match lookupKey m "spec".data with
  | none => .error "spec key not found in YAML".data
  | some v =>
    match v with
    | .obj spec =>
      match patchFn version path spec with
      | .error e => .error ("failed to patch schema: ".data ++ e)
      | .ok out => .ok (.obj out)
    | v => .error ("spec is not an object, got ".data ++ goTypeName v)

/-- Source `convertSpecYAMLToJSONSchema` proper. -/
def convertSpecYAMLToJSONSchema (path : Str) (m : List (Str × JSONValue))
    (version : Str) : Except Str JSONValue :=
  convertSpecYAMLToJSONSchemaWith patchSchema path m version

/-- Source `writeSchema`, conversion part: wrap a conversion failure with
the message naming the relative path (Go `%q` adds quotes around it);
the disk write of the successful result is modelled separately by the
filesystem-operation trace below. -/
def writeSchemaResult (relPath : Str) (m : List (Str × JSONValue))
    (version : Str) : Except Str JSONValue :=
  match convertSpecYAMLToJSONSchema relPath m version with
  | .error e =>
    .error ("failed converting spec.yml file to JSON schema for \"".data
      ++ relPath ++ "\": ".data ++ e)
  | .ok v => .ok v

/-- Semantic version as represented by the coreos go-semver `Version`
struct used by the generator (64-bit components modelled as `Nat` with
the `ParseInt` range check kept in the parser). -/
structure Semver where
  major : Nat
  minor : Nat
  patch : Nat
  preRelease : Str
  metadata : Str
deriving DecidableEq, Repr

/-- go-semver helper `splitOff(&input, delim)` for one-character
delimiters: when the delimiter occurs, the input shrinks to the part
before its first occurrence and the part after it is returned; otherwise
the returned value is empty. -/
def splitOff (s : Str) (delim : Char) : Str × Str :=
  if s.contains delim then
    (s.takeWhile (fun c => c ≠ delim), (s.dropWhile (fun c => c ≠ delim)).drop 1)
  else (s, [])

/-- go-semver `validateIdentifier`: an identifier may be empty, or must
consist of one or more dot-separated non-empty groups of ASCII letters,
digits and hyphens (the library's pattern
`[0-9A-Za-z-]+(\.[0-9A-Za-z-]+)*` anchored at both ends). -/
def validateIdentifier (id : Str) : Bool :=
  id = [] || (id.splitOn '.').all
    (fun part => part ≠ [] && part.all (fun c => c.isDigit || c.isAlpha || c = '-'))

/-- Go `strconv.ParseInt(s, 10, 64)` restricted to the unsigned strings
that can reach it here (the signs were consumed by `splitOff`): all
decimal digits, non-empty, within the signed 64-bit range. -/
def parseIntDec (s : Str) : Option Nat :=
  if s = [] then none
  else if s.all Char.isDigit = false then none
  else
    let n := s.foldl (fun acc c => acc * 10 + (c.toNat - '0'.toNat)) 0
    if n ≤ 9223372036854775807 then some n else none

/-- Go `strings.SplitN(s, ".", 3)`: split at the first two dots; the
third part keeps any remaining dots. -/
def splitN3Dots (s : Str) : List Str :=
  if s.contains '.' then
    let p1 := s.takeWhile (fun c => c ≠ '.')
    let r1 := (s.dropWhile (fun c => c ≠ '.')).drop 1
    if r1.contains '.' then
      [p1, r1.takeWhile (fun c => c ≠ '.'), (r1.dropWhile (fun c => c ≠ '.')).drop 1]
    else [p1, r1]
  else [s]

/-- go-semver `NewVersion`/`Version.Set`: split off metadata at the first
`+`, then the pre-release at the first `-`, require exactly three dotted
parts, validate the identifiers, and parse the three numbers. -/
def semverNewVersion (s : Str) : Option Semver :=
  let m1 := splitOff s '+'
  let m2 := splitOff m1.1 '-'
  match splitN3Dots m2.1 with
  | [a, b, c] =>
    if validateIdentifier m2.2 = false then none
    else if validateIdentifier m1.2 = false then none
    else
      match parseIntDec a, parseIntDec b, parseIntDec c with
      | some ma, some mi, some pa =>
        some { major := ma, minor := mi, patch := pa,
               preRelease := m2.2, metadata := m1.2 }
      | _, _, _ => none
  | _ => none

/-- go-semver `Version.String()`: dotted triple, `-pre` when the
pre-release is non-empty, `+meta` when the metadata is non-empty. -/
def semverString (v : Semver) : Str :=
  (Nat.repr v.major).data ++ '.' :: (Nat.repr v.minor).data
    ++ '.' :: (Nat.repr v.patch).data
    ++ (if v.preRelease = [] then [] else '-' :: v.preRelease)
    ++ (if v.metadata = [] then [] else '+' :: v.metadata)

/-- go-semver `Version.LessThan`: compare major, minor, patch
numerically, then pre-releases (an empty pre-release sorts after any
non-empty one).  The both-non-empty branch abstracts the dotted
identifier comparison by a lexicographic one; it is unreachable from
`GetReleaseTags`, which discards every non-empty pre-release before
sorting.  Metadata never participates. -/
def semverLess (a b : Semver) : Bool :=
  if a.major ≠ b.major then a.major < b.major
  else if a.minor ≠ b.minor then a.minor < b.minor
  else if a.patch ≠ b.patch then a.patch < b.patch
  else if a.preRelease = [] && b.preRelease ≠ [] then false
  else if a.preRelease ≠ [] && b.preRelease = [] then true
  else strLt a.preRelease b.preRelease

/-- go-git `ReferenceName.Short` for the reference-name shapes that occur
here: full tag and branch names lose their `refs/...` namespace, any
other name (such as a literal reference passed on the command line) is
returned unchanged. -/
def refShort (name : Str) : Str :=
  if "refs/tags/".data.isPrefixOf name then name.drop 10
  else if "refs/heads/".data.isPrefixOf name then name.drop 11
  else if "refs/remotes/".data.isPrefixOf name then name.drop 13
  else name

/-- Source `tagToSemver`, acting on the reference name: require the `v`
marker on the short name, strip it, and parse the rest as a semantic
version. -/
def tagToSemver (refName : Str) : Option Semver :=
  let tag := refShort refName
  if "v".data.isPrefixOf tag = false then none
  else semverNewVersion (tag.drop 1)

/-- Source `GetReleaseTags`, on the list of tag reference names: keep the
tags that parse as versions with an empty pre-release and return them
sorted ascending by `semverLess`.  The Go code routes this through a
version-pointer-keyed map and `semver.Sort` (an unstable sort over a
nondeterministic key order); the embedding fixes a deterministic sort,
which agrees whenever the parsed versions are distinct and is one of the
permitted outcomes otherwise. -/
def GetReleaseTags (tags : List Str) : List Str :=
  let withVers := tags.filterMap (fun t =>
    match tagToSemver t with
    | none => none
    | some v => if v.preRelease ≠ [] then none else some (v, t))
  (List.insertionSort (fun a b : Semver × Str => (!(semverLess b.1 a.1)) = true)
    withVers).map Prod.snd

/-- Version selection of `run` (lines 64-77): an explicit reference
yields exactly the single reference named by it, otherwise discovery
enumerates the release tags. -/
def listVersions (explicitRef : Option Str) (tags : List Str) : List Str :=
  match explicitRef with
  | some r => [r]
  | none => GetReleaseTags tags

/-- Version label of `writeSchemas` (lines 88-91): the reference name
itself, replaced by the normalized semver rendering whenever
`tagToSemver` accepts the reference. -/
def versionLabel (refName : Str) : Str :=
  match tagToSemver refName with
  | some v => semverString v
  | none => refName

/-- Fixed manifest-type table of `combinedManifestSchema`. -/
def manifestTypePaths : List (Str × Str) :=
  [("content".data, "content/manifest.jsonschema.json".data),
   ("input".data, "input/manifest.jsonschema.json".data),
   ("integration".data, "integration/manifest.jsonschema.json".data)]

/-- Projection of the `jsonschema.Schema` fields that
`combinedManifestSchema` populates.  `typeEnum` is the `Enum` slice of
the `type` property (Go `[]interface{}`), `typeDeclared` its `Type`;
each `allOf` branch is the pair (the `Const` of `type` in its `If`, the
`Ref` of its `Then`); `defs` maps each definition name to the `Ref` it
holds. -/
structure CombinedSchema where
  schema : Str
  id : Str
  title : Str
  description : Str
  schemaType : Str
  required : List Str
  typeDeclared : Str
  typeEnum : List JSONValue
  allOf : List (Str × Str)
  defs : List (Str × Str)

/-- Source `combinedManifestSchema`: keep the manifest types whose
per-type path is a suffix of some written file (the paths are already
slash-separated, so `filepath.ToSlash` is the identity), fail when none
remain, and build the discriminated-union schema over the
lexicographically sorted remaining type names.  `Enum` is populated
exactly as in the source: a one-element slice whose element is the
sorted name list itself. -/
def combinedManifestSchema (files : List Str) (version : Str) :
    Except Str CombinedSchema :=
  let present := manifestTypePaths.filter
    (fun tp => files.any (fun s => tp.2.isSuffixOf s))
  if present = [] then .error "no manifest types found".data
  else
    let sortedTypes :=
      List.insertionSort (fun a b : Str => strLe a b = true)
        (present.map Prod.fst)
    .ok {
      schema := "https://json-schema.org/draft/2020-12/schema".data
      id := schemaID version "manifest.jsonschema.json".data
      title := "Package Manifest".data
      description := "Schema for package manifests.".data
      schemaType := "object".data
      required := ["type".data]
      typeDeclared := "string".data
      typeEnum := [JSONValue.arr (sortedTypes.map JSONValue.str)]
      allOf := sortedTypes.map
        (fun t => (t, "#/$defs/".data ++ t ++ "-manifest".data))
      defs := sortedTypes.map
        (fun t => (t ++ "-manifest".data,
          "./".data ++ (lookupKey manifestTypePaths t).getD []))
    }

/-- Contents a run can write: a converted spec document, a synthesized
combined manifest, or raw bytes from the bundling oracle. -/
inductive FileContent where
  | schemaDoc (v : JSONValue)
  | manifestDoc (s : CombinedSchema)
  | raw (bytes : Str)

/-- Filesystem effects performed by a run, as a trace: recursive removal
of a directory and file writes (`os.RemoveAll`, `os.WriteFile`;
`os.MkdirAll` only materialises parents and is not observable in the
path-to-content map). -/
inductive FSOp where
  | removeAll (dir : Str)
  | write (path : Str) (content : FileContent)

/-- Path `p` lies in directory `dir` (is `dir` itself or below it). -/
def underDir (dir p : Str) : Bool :=
  p = dir || (dir ++ ['/']).isPrefixOf p

/-- Effect of one filesystem operation on a path-to-content map. -/
def applyOp (fs : List (Str × FileContent)) : FSOp → List (Str × FileContent)
  | .removeAll d => fs.filter (fun pc => !underDir d pc.1)
  | .write p c => setKey fs p c

/-- Effect of a trace of filesystem operations, first to last. -/
def applyOps (fs : List (Str × FileContent)) (ops : List FSOp) :
    List (Str × FileContent) :=
  ops.foldl applyOp fs

/-- Go `filepath.Join` for the clean, non-empty components used here. -/
def joinPath (a b : Str) : Str := a ++ '/' :: b

/-- Go `filepath.Base` for the slash-separated file paths produced by the
worktree walk (never empty, never ending in a slash). -/
def basename (p : Str) : Str :=
  p.foldl (fun acc c => if c = '/' then [] else acc ++ [c]) []

/-- Per-file loop of `writeSchemas` (walk body, lines 113-138): for each
walked file whose base name ends in `.spec.yml`, derive the output
relative path and the converted document, recording the write.  Returns
the written relative paths and the write operations; a conversion
failure aborts with its error, as the walk callback does. -/
def collectWrites (dir ver : Str) :
    List (Str × List (Str × JSONValue)) → Except Str (List Str × List FSOp)
  | [] => .ok ([], [])
  | (path, m) :: rest =>
    match writeSchemaResult
        (replaceFirst path ".spec.yml".data ".jsonschema.json".data) m ver with
    | .error e => .error e
    | .ok content =>
      match collectWrites dir ver rest with
      | .error e => .error e
      | .ok (written, ops) =>
        .ok (replaceFirst path ".spec.yml".data ".jsonschema.json".data
            :: written,
          FSOp.write (joinPath dir
              (replaceFirst path ".spec.yml".data ".jsonschema.json".data))
            (.schemaDoc content) :: ops)

/-- Source `writeSchemas` (lines 87-152) as a filesystem trace, for a
checked-out tree whose walked spec files are given as pairs of a path
relative to the specs root and the decoded YAML root map: compute the
version label and output directory, remove the directory, write every
converted spec file beneath it, and append the synthesized combined
manifest unless a root manifest was written.  Runs that fail part-way
produce an error instead of a partial trace; the claims below concern
successful runs. -/
def writeSchemasOps (outDir refName : Str)
    (files : List (Str × List (Str × JSONValue))) :
    Except Str (List FSOp) :=
  match collectWrites (joinPath (joinPath outDir (versionLabel refName))
      "jsonschema".data) (versionLabel refName)
      (files.filter
        (fun f => ".spec.yml".data.isSuffixOf (basename f.1))) with
  | .error e => .error e
  | .ok (written, ops) =>
    if written.contains "manifest.jsonschema.json".data then
      .ok (FSOp.removeAll (joinPath (joinPath outDir (versionLabel refName))
        "jsonschema".data) :: ops)
    else
      match combinedManifestSchema written (versionLabel refName) with
      | .error e => .error e
      | .ok s =>
        .ok (FSOp.removeAll (joinPath (joinPath outDir
            (versionLabel refName)) "jsonschema".data) :: ops
          ++ [FSOp.write (joinPath (joinPath (joinPath outDir
                (versionLabel refName)) "jsonschema".data)
                "manifest.jsonschema.json".data)
                (.manifestDoc s)])

/-- Result of one run of the external `jsonschema` process as observed
by `jsonschemaExec` in `.generate/bundle/main.go`: the captured standard
output and standard error buffers, and the error value `cmd.Run`
returned, `none` when the command succeeded. -/
structure ProcResult where
  stdout : Str
  stderr : Str
  exitErr : Option Str

/-- `strings.Join(args, " ")`. -/
def joinSpace : List Str → Str
  | [] => []
  | [s] => s
  | s :: rest => s ++ ' ' :: joinSpace rest

/-- `trimFilePrefix` from `.generate/bundle/main.go`: strip the leading
`prefix+"/"` from the path when present (paths are already
slash-separated here, so `filepath.ToSlash` is the identity). -/
def trimFilePrefix (path pfx : Str) : Str :=
  if (pfx ++ ['/']).isPrefixOf path then path.drop (pfx.length + 1)
  else path

/-- `jsonschemaExec` from `.generate/bundle/main.go`, over a process
oracle standing for `exec.Command("jsonschema", args...).Run()`: when
the run returns an error, the captured standard-error buffer is printed
to the program standard error stream and an error wrapping only the run
error is returned; on success the captured standard output is returned.
The second component collects what the function prints to the standard
error stream. -/
def jsonschemaExec (runCmd : List Str → ProcResult) (args : List Str) :
    Except Str Str × List Str :=
  match (runCmd args).exitErr with
  | some e =>
    (.error ("failed running jsonschema ".data ++ joinSpace args
        ++ ": ".data ++ e), [(runCmd args).stderr])
  | none => (.ok (runCmd args).stdout, [])

/-- `bundleSchema` from `.generate/bundle/main.go`: invoke
`jsonschema bundle <schemaPath> --resolve <inDir> --without-id`; on
success write the bundled standard output under `outDir` at the input
path with the `inDir/` prefix removed; on failure propagate the
`jsonschemaExec` error unchanged and produce no write operation. -/
def bundleSchema (runCmd : List Str → ProcResult)
    (schemaPath inDir outDir : Str) : Except Str (List FSOp) × List Str :=
  match jsonschemaExec runCmd ["bundle".data, schemaPath,
      "--resolve".data, inDir, "--without-id".data] with
  | (.error e, prints) => (.error e, prints)
  | (.ok out, prints) =>
    (.ok [FSOp.write (joinPath outDir ( trimFilePrefix schemaPath inDir))
        (.raw out)], prints)

/-- One iteration of the loop in `run` from `.generate/bundle/main.go`:
a `bundleSchema` failure for entry `schema` is wrapped as
`bundling "<schema>" failed: <err>`. -/
def runBundleEntry (runCmd : List Str → ProcResult)
    (schemaPath inDir outDir : Str) : Except Str (List FSOp) × List Str :=
  match bundleSchema runCmd schemaPath inDir outDir with
  | (.error e, prints) =>
    (.error ("bundling \"".data ++ schemaPath ++ "\" failed: ".data ++ e),
      prints)
  | (.ok ops, prints) => (.ok ops, prints)

/-- Process oracle used for the concrete C8 scenario: every invocation
fails with exit error `exit status 2` after writing the diagnostic
`missing $ref target` to its standard error. -/
def c8Oracle : List Str → ProcResult :=
  fun _ => ⟨[], "missing $ref target".data, some "exit status 2".data⟩

/-- Rewrite of the `.spec.yml` file suffix as the specification's words
describe it (section 4.3, claim C2): replace the input file suffix with
the output file suffix if the string ends with it, leaving the string
unchanged otherwise. -/
def replaceSuffix (s : Str) : Str :=
  if ".spec.yml".data.isSuffixOf s then
    s.take (s.length - 9) ++ ".jsonschema.json".data
  else s

/-- Definition following the words of the specification (section 4.3) and
of claim C2, to be compared with the source embedding `refPatch`: the
`$ref` has its `.spec.yml` suffix (of the part before the fragment)
replaced by `.jsonschema.json` if present; then the caret character is
percent-encoded within the fragment portion only (the part after the
first `#`), each caret mapping to `%5E`, the base portion and all other
fragment characters left untouched; a `$ref` with no `#` gets only the
suffix rewrite. -/
def specRefRewrite (s : Str) : Str :=
  if s.contains '#' then
    replaceSuffix (s.takeWhile (fun c => c ≠ '#'))
      ++ '#' :: ((s.dropWhile (fun c => c ≠ '#')).drop 1).foldr
        (fun c acc => (if c = '^' then "%5E".data else [c]) ++ acc) []
  else replaceSuffix s

/-- Definition following the words of claim C2 as amended: the first
`.spec.yml` occurrence anywhere in the `$ref` string is replaced by
`.jsonschema.json`; then the caret character is percent-encoded within
the fragment portion of the rewritten string only (the part after the
first `#`), each caret mapping to `%5E`, the base portion and all other
fragment characters left untouched; a rewritten `$ref` with no `#` gets
only the occurrence rewrite. -/
def amendedRefRewrite (s : Str) : Str :=
  if (replaceFirst s ".spec.yml".data ".jsonschema.json".data).contains '#' then
    (replaceFirst s ".spec.yml".data ".jsonschema.json".data).takeWhile
        (fun c => c ≠ '#')
      ++ '#' :: (((replaceFirst s ".spec.yml".data
            ".jsonschema.json".data).dropWhile (fun c => c ≠ '#')).drop 1).foldr
        (fun c acc => (if c = '^' then "%5E".data else [c]) ++ acc) []
  else replaceFirst s ".spec.yml".data ".jsonschema.json".data

/-- A `$ref` string is fully rewritten by one pass: after its first
`.spec.yml` occurrence is replaced, no `.spec.yml` occurrence remains
(true in particular for every string with at most one occurrence). -/
def refOnceRewritten (s : Str) : Bool :=
  !(decide (".spec.yml".data
      <:+: replaceFirst s ".spec.yml".data ".jsonschema.json".data))

mutual
/-- Every `$ref` string value anywhere in the tree satisfies
`refOnceRewritten`. -/
def refsStable : JSONValue → Bool
  | .obj es => refsStableEntries es
  | .arr xs => refsStableItems xs
  | _ => true

/-- Entry-wise form of `refsStable`. -/
def refsStableEntries : List (Str × JSONValue) → Bool
  | [] => true
  | (k, v) :: rest =>
    (match v with
     | .str s => if k = "$ref".data then refOnceRewritten s else true
     | _ => true)
    && refsStable v && refsStableEntries rest

/-- Item-wise form of `refsStable`. -/
def refsStableItems : List JSONValue → Bool
  | [] => true
  | x :: rest => refsStable x && refsStableItems rest
end

mutual
/-- No object in the tree carries a `$id` key, except below the value of
a `$ref` key (which the patch pass does not visit). -/
def noStrayIdVal : JSONValue → Bool
  | .obj es => noStrayIdEntries es
  | .arr xs => noStrayIdItems xs
  | _ => true

/-- Entry-wise form of `noStrayIdVal`. -/
def noStrayIdEntries : List (Str × JSONValue) → Bool
  | [] => true
  | (k, v) :: rest =>
    (k ≠ "$id".data : Bool) && (k = "$ref".data || noStrayIdVal v)
      && noStrayIdEntries rest

/-- Item-wise form of `noStrayIdVal`. -/
def noStrayIdItems : List JSONValue → Bool
  | [] => true
  | x :: rest => noStrayIdVal x && noStrayIdItems rest
end

/-- Entry-wise form of `noStrayIdRoot` below. -/
def noStrayIdRootEntries : List (Str × JSONValue) → Bool
  | [] => true
  | (k, v) :: rest =>
    (k = "$id".data || k = "$ref".data || noStrayIdVal v)
      && noStrayIdRootEntries rest

/-- Root form of `noStrayIdVal`: the root object may keep its own `$id`
(whose value the pass does not visit), everything else is as in
`noStrayIdVal`. -/
def noStrayIdRoot : JSONValue → Bool
  | .obj es => noStrayIdRootEntries es
  | .arr xs => noStrayIdItems xs
  | _ => true

/-! Helper lemmas. -/

theorem encodeURIFragment_eq_ok (ref : Str) :
    encodeURIFragment ref = .ok (encodeFragment ref) := by
  unfold encodeURIFragment encodeFragment
  cases h1 : ref.contains '#' <;> simp [h1]
  split_ifs <;> rfl

mutual
theorem patchRec_ok (v : JSONValue) (r : Bool) :
    patchSchemaInPlaceRecursive v r = .ok (patchValue v r) := by
  cases v with
  | obj es =>
    rw [patchSchemaInPlaceRecursive, patchValue, patchEntriesE_ok es r]
  | arr xs =>
    rw [patchSchemaInPlaceRecursive, patchValue, patchItemsE_ok xs]
  | null => rfl
  | bool b => rfl
  | num n => rfl
  | str s => rfl
termination_by sizeOf v

theorem patchEntriesE_ok (es : List (Str × JSONValue)) (r : Bool) :
    patchEntriesE es r = .ok (patchEntries es r) := by
  cases es with
  | nil => rfl
  | cons e rest =>
    obtain ⟨k, v⟩ := e
    have ih := patchEntriesE_ok rest r
    have hv := patchRec_ok v false
    cases v with
    | null =>
      simp only [patchEntriesE, patchEntries, ih, hv]
      split_ifs <;> rfl
    | bool b =>
      cases b
      · simp only [patchEntriesE, patchEntries, ih, hv]
        split_ifs <;> rfl
      · simp only [patchEntriesE, patchEntries, ih, hv]
        split_ifs <;> rfl
    | num n =>
      simp only [patchEntriesE, patchEntries, ih, hv]
      split_ifs <;> rfl
    | str s =>
      simp only [patchEntriesE, patchEntries, ih, hv, encodeURIFragment_eq_ok]
      split_ifs <;> rfl
    | arr xs =>
      simp only [patchEntriesE, patchEntries, ih, hv]
      split_ifs <;> rfl
    | obj es2 =>
      simp only [patchEntriesE, patchEntries, ih, hv]
      split_ifs <;> rfl
termination_by sizeOf es

theorem patchItemsE_ok (xs : List JSONValue) :
    patchItemsE xs = .ok (patchItems xs) := by
  cases xs with
  | nil => rfl
  | cons x rest =>
    rw [patchItemsE, patchItems, patchRec_ok x false, patchItemsE_ok rest]
termination_by sizeOf xs
end

theorem dropWhile_hash_eq (l : Str) (h : l.contains '#' = true) :
    l.dropWhile (fun c => c ≠ '#')
      = '#' :: (l.dropWhile (fun c => c ≠ '#')).drop 1 := by
  have hmem : '#' ∈ l := by simpa using h
  have hne : l.dropWhile (fun c => c ≠ '#') ≠ [] := by
    rw [Ne, List.dropWhile_eq_nil_iff]
    push_neg
    exact ⟨'#', hmem, by simp⟩
  have hh : (l.dropWhile (fun c => c ≠ '#')).head hne = '#' := by
    simpa using List.head_dropWhile_not (fun c => decide (c ≠ '#')) l hne
  rw [List.drop_one]
  conv_lhs => rw [← List.head_cons_tail _ hne]
  rw [hh]

theorem hash_split (t : Str) (h : t.contains '#' = true) :
    t = t.takeWhile (fun c => c ≠ '#')
      ++ '#' :: (t.dropWhile (fun c => c ≠ '#')).drop 1 := by
  conv_lhs =>
    rw [← List.takeWhile_append_dropWhile (fun c => decide (c ≠ '#')) t]
  rw [← dropWhile_hash_eq t h]

theorem encodeCarets_eq_foldr (l : Str) :
    encodeCarets l
      = l.foldr (fun c acc => (if c = '^' then "%5E".data else [c]) ++ acc) [] := by
  induction l with
  | nil => rfl
  | cons c rest ih => simp [encodeCarets, ih]

theorem encode_bare_hash (b : Str) (h : b.contains '#' = false) :
    encodeURIFragment (b ++ ['#']) = .ok (b ++ ['#']) := by
  have hb : b.dropWhile (fun c => c ≠ '#') = [] := by
    rw [List.dropWhile_eq_nil_iff]
    intro x hx
    have hnm : ¬ '#' ∈ b := by simpa using h
    simp only [decide_eq_true_eq]
    intro he
    exact hnm (he ▸ hx)
  have hfrag : ((b ++ ['#']).dropWhile (fun c => c ≠ '#')).drop 1 = [] := by
    rw [List.dropWhile_append, hb]
    simp [List.dropWhile]
  have hc : (b ++ ['#']).contains '#' = true := by simp
  unfold encodeURIFragment
  rw [hc, hfrag]
  simp

theorem refPatch_eq_amendedRefRewrite (s : Str) :
    refPatch s = amendedRefRewrite s := by
  unfold refPatch amendedRefRewrite encodeFragment
  by_cases h1 : (replaceFirst s ".spec.yml".data ".jsonschema.json".data).contains '#'
    = false
  · rw [if_pos h1, if_neg (by rw [h1]; exact Bool.false_ne_true)]
  · rw [if_neg h1]
    have h1t : (replaceFirst s ".spec.yml".data ".jsonschema.json".data).contains '#'
        = true := by
      simpa using h1
    rw [if_pos h1t]
    by_cases h2 : ((replaceFirst s ".spec.yml".data
        ".jsonschema.json".data).dropWhile (fun c => c ≠ '#')).drop 1 = []
    · rw [if_pos h2, h2]
      have hs := hash_split (replaceFirst s ".spec.yml".data ".jsonschema.json".data) h1t
      rw [h2] at hs
      conv_lhs => rw [hs]
      rfl
    · rw [if_neg h2, encodeCarets_eq_foldr]

/-- Counterexample to C2: the source rewrites the FIRST `.spec.yml`
occurrence, not the suffix before the fragment as the spec words say.
On `a.spec.yml.spec.yml` the source rewrites the inner occurrence while
the spec words rewrite the suffix; on `a.json#/x.spec.yml` the source
rewrites inside the fragment while the spec words leave the reference
unchanged (no `.spec.yml` suffix on the base). -/
theorem claim_C2_counterexample :
    refPatch "a.spec.yml.spec.yml".data = "a.jsonschema.json.spec.yml".data
      ∧ specRefRewrite "a.spec.yml.spec.yml".data
          = "a.spec.yml.jsonschema.json".data
      ∧ refPatch "a.json#/x.spec.yml".data
          = "a.json#/x.jsonschema.json".data
      ∧ specRefRewrite "a.json#/x.spec.yml".data
          = "a.json#/x.spec.yml".data :=
  ⟨by decide, by decide, by decide, by decide⟩

/-- C2 (amended): patching a document holding a redundant
`additionalProperties` and a caret-bearing reference deletes the former
and rewrites the reference to `foo.jsonschema.json#/bar%5Ebaz`; in
general the `$ref` rewrite of the source replaces the first `.spec.yml`
occurrence anywhere in the string (the fragment included), then
percent-encodes each caret in the fragment portion of the rewritten
string, leaving the base portion and all other fragment characters
untouched; a rewritten string with no `#` receives only the occurrence
replacement. -/
theorem claim_C2_ref_rewrite :
    patchSchemaInPlace (JSONValue.obj
        [("additionalProperties".data, JSONValue.bool true),
         ("$ref".data, JSONValue.str "foo.spec.yml#/bar^baz".data)])
      = .ok (JSONValue.obj
        [("$ref".data, JSONValue.str "foo.jsonschema.json#/bar%5Ebaz".data)])
    ∧ ∀ s : Str, refPatch s = amendedRefRewrite s :=
  ⟨by rfl, refPatch_eq_amendedRefRewrite⟩

/-- C9: the fragment-encoding helper is total and never returns an error
(in particular a reference ending in a bare `#` with empty fragment is
returned unchanged), so the error branch of the recursive patch pass is
unreachable and the pass always succeeds, returning the pure patched
value. -/
theorem claim_C9_patch_pass_never_fails :
    (∀ ref : Str, encodeURIFragment ref = .ok (encodeFragment ref))
    ∧ (∀ base : Str, base.contains '#' = false →
        encodeURIFragment (base ++ ['#']) = .ok (base ++ ['#']))
    ∧ (∀ (v : JSONValue) (r : Bool),
        patchSchemaInPlaceRecursive v r = .ok (patchValue v r)) :=
  ⟨encodeURIFragment_eq_ok, encode_bare_hash, patchRec_ok⟩

/-- Witness for C9 at a concrete bare-`#` reference. -/
theorem claim_C9_witness :
    encodeURIFragment ("foo".data ++ ['#']) = .ok ("foo".data ++ ['#']) :=
  claim_C9_patch_pass_never_fails.2.1 "foo".data (by rfl)

/-- C1, at the failing corpus {input, integration}: the synthesized
manifest declares `type` as a string and has exactly one `allOf` branch
and one definition per present type in sorted order, but its `Enum` is a
one-element slice holding the whole sorted name list (a nested array),
not the flat two-element enumeration the claim and the schema itself
require. -/
theorem claim_C1_enum_nested_not_flat :
    ∃ s, combinedManifestSchema
        ["input/manifest.jsonschema.json".data,
         "integration/manifest.jsonschema.json".data] "3.0.0".data = .ok s
      ∧ s.typeDeclared = "string".data
      ∧ s.typeEnum = [JSONValue.arr
          [JSONValue.str "input".data, JSONValue.str "integration".data]]
      ∧ s.typeEnum
          ≠ [JSONValue.str "input".data, JSONValue.str "integration".data]
      ∧ s.allOf = [("input".data, "#/$defs/input-manifest".data),
          ("integration".data, "#/$defs/integration-manifest".data)]
      ∧ s.defs = [("input-manifest".data,
            "./input/manifest.jsonschema.json".data),
          ("integration-manifest".data,
            "./integration/manifest.jsonschema.json".data)]
      ∧ s.required = ["type".data] := by
  refine ⟨_, rfl, rfl, rfl, ?_, rfl, rfl, rfl⟩
  intro h
  simpa using congrArg List.length h

/-- Counterexample to C6: the explicit reference `v1.2.3` produces one
entry, but its version label is the normalized `1.2.3`, not the literal
reference string. -/
theorem claim_C6_counterexample :
    listVersions (some "v1.2.3".data) [] = ["v1.2.3".data]
      ∧ versionLabel "v1.2.3".data ≠ "v1.2.3".data
      ∧ versionLabel "v1.2.3".data = "1.2.3".data :=
  ⟨rfl, by decide, by decide⟩

/-- C6 as amended: an explicit reference yields exactly one entry; its
label is the literal reference unless the reference parses as a
`v`-prefixed semantic version, in which case it is the normalized semver
rendering. -/
theorem claim_C6_explicit_ref (r : Str) (tags : List Str) :
    listVersions (some r) tags = [r]
      ∧ (tagToSemver r = none → versionLabel r = r)
      ∧ ∀ v, tagToSemver r = some v → versionLabel r = semverString v := by
  refine ⟨rfl, ?_, ?_⟩
  · intro h
    unfold versionLabel
    rw [h]
  · intro v h
    unfold versionLabel
    rw [h]

/-- Witness for C6 at the non-semver reference `main` and at the
pre-release reference `v1.0.0-beta.1`, which go-semver parses through
its dotted-identifier pattern and which is therefore labeled by its
normalized rendering `1.0.0-beta.1`. -/
theorem claim_C6_witness :
    listVersions (some "main".data) [] = ["main".data]
      ∧ versionLabel "main".data = "main".data
      ∧ listVersions (some "v1.0.0-beta.1".data) [] = ["v1.0.0-beta.1".data]
      ∧ versionLabel "v1.0.0-beta.1".data = "1.0.0-beta.1".data :=
  ⟨(claim_C6_explicit_ref "main".data []).1,
   (claim_C6_explicit_ref "main".data []).2.1 (by rfl),
   (claim_C6_explicit_ref "v1.0.0-beta.1".data []).1,
   ((claim_C6_explicit_ref "v1.0.0-beta.1".data []).2.2
       { major := 1, minor := 0, patch := 0,
         preRelease := "beta.1".data, metadata := [] } (by decide)).trans
     (by decide)⟩

/-- C7: when the decoded document lacks a root `spec` key, or its value
is not an object, conversion fails for every possible patching function
(so before any patching), and the write step surfaces an error message
naming the offending file. -/
theorem claim_C7_format_error (relPath version : Str)
    (m : List (Str × JSONValue))
    (h : lookupKey m "spec".data = none
      ∨ ∃ v, lookupKey m "spec".data = some v ∧ ∀ es, v ≠ JSONValue.obj es) :
    (∃ e, ∀ patchFn,
      convertSpecYAMLToJSONSchemaWith patchFn relPath m version = .error e)
    ∧ ∃ msg, writeSchemaResult relPath m version = .error msg
        ∧ relPath <:+: msg := by
  have hconv : ∃ e, ∀ patchFn,
      convertSpecYAMLToJSONSchemaWith patchFn relPath m version = .error e := by
    rcases h with h | ⟨v, hv, hno⟩
    · refine ⟨"spec key not found in YAML".data, fun patchFn => ?_⟩
      unfold convertSpecYAMLToJSONSchemaWith
      rw [h]
    · refine ⟨"spec is not an object, got ".data ++ goTypeName v,
        fun patchFn => ?_⟩
      unfold convertSpecYAMLToJSONSchemaWith
      rw [hv]
      cases v with
      | obj es => exact absurd rfl (hno es)
      | null => rfl
      | bool b => rfl
      | num n => rfl
      | str s => rfl
      | arr xs => rfl
  obtain ⟨e, he⟩ := hconv
  refine ⟨⟨e, he⟩,
    ⟨"failed converting spec.yml file to JSON schema for \"".data ++ relPath
      ++ "\": ".data ++ e, ?_, ?_⟩⟩
  · unfold writeSchemaResult convertSpecYAMLToJSONSchema
    rw [he patchSchema]
  · exact ⟨"failed converting spec.yml file to JSON schema for \"".data,
      "\": ".data ++ e, by simp⟩

/-- Witness for C7 at a decoded document with no `spec` key. -/
theorem claim_C7_witness :
    ∃ msg, writeSchemaResult "integration/manifest.spec.yml".data []
        "1.0.0".data = .error msg
      ∧ "integration/manifest.spec.yml".data <:+: msg :=
  (claim_C7_format_error "integration/manifest.spec.yml".data "1.0.0".data []
    (Or.inl rfl)).2

/-- Counterexample to C8: with a process oracle whose `jsonschema` run
fails with exit error `exit status 2` after writing the diagnostic
`missing $ref target` to standard error, the per-entry bundling error
names the entry path and wraps the exit error, but the diagnostic is
printed to the standard error stream and does not occur inside the
returned error message, contradicting the claim that the error wraps
the oracle's diagnostic output. -/
theorem claim_C8_counterexample :
    runBundleEntry c8Oracle "in/a.jsonschema.json".data "in".data "out".data
        = (.error ("bundling \"in/a.jsonschema.json\" failed: failed running jsonschema bundle in/a.jsonschema.json --resolve in --without-id: exit status 2".data),
          ["missing $ref target".data])
      ∧ ¬ ("missing $ref target".data
          <:+: "bundling \"in/a.jsonschema.json\" failed: failed running jsonschema bundle in/a.jsonschema.json --resolve in --without-id: exit status 2".data) := by
  refine ⟨rfl, fun hinf => ?_⟩
  exact absurd (hinf.subset (by decide : ('$' : Char) ∈ "missing $ref target".data))
    (by decide)

/-- C8 (amended): a failing run of the external `jsonschema` process for
a bundle entry surfaces as a bundling error that names the entry path
and wraps the process run error; the oracle's standard-error diagnostic
is printed to the standard error stream rather than wrapped in the
error, and no write operation is produced for that entry. -/
theorem claim_C8_bundle_error (runCmd : List Str → ProcResult)
    (schemaPath inDir outDir sout d x : Str)
    (h : runCmd ["bundle".data, schemaPath, "--resolve".data, inDir,
        "--without-id".data] = ⟨sout, d, some x⟩) :
    ∃ msg, runBundleEntry runCmd schemaPath inDir outDir = (.error msg, [d])
      ∧ schemaPath <:+: msg ∧ x <:+: msg := by
  refine ⟨"bundling \"".data ++ schemaPath ++ "\" failed: ".data
      ++ ("failed running jsonschema ".data
        ++ joinSpace ["bundle".data, schemaPath, "--resolve".data, inDir,
            "--without-id".data]
        ++ ": ".data ++ x), ?_, ?_, ?_⟩
  · unfold runBundleEntry bundleSchema jsonschemaExec
    rw [h]
  · exact ⟨"bundling \"".data,
      "\" failed: ".data ++ ("failed running jsonschema ".data
        ++ joinSpace ["bundle".data, schemaPath, "--resolve".data, inDir,
            "--without-id".data] ++ ": ".data ++ x), by simp⟩
  · exact ⟨"bundling \"".data ++ schemaPath ++ "\" failed: ".data
        ++ ("failed running jsonschema ".data
          ++ joinSpace ["bundle".data, schemaPath, "--resolve".data, inDir,
              "--without-id".data] ++ ": ".data), [], by simp⟩

/-- Witness for C8 at the concrete failing process oracle. -/
theorem claim_C8_witness :
    ∃ msg, runBundleEntry c8Oracle "in/a.jsonschema.json".data "in".data
        "out".data = (.error msg, ["missing $ref target".data])
      ∧ "in/a.jsonschema.json".data <:+: msg
      ∧ "exit status 2".data <:+: msg :=
  claim_C8_bundle_error c8Oracle "in/a.jsonschema.json".data "in".data
    "out".data [] "missing $ref target".data "exit status 2".data rfl

mutual
theorem noStrayId_patchValue (v : JSONValue) :
    noStrayIdVal (patchValue v false) = true := by
  cases v with
  | obj es =>
    rw [patchValue, noStrayIdVal, noStrayId_patchEntries es]
  | arr xs =>
    rw [patchValue, noStrayIdVal, noStrayId_patchItems xs]
  | null => rfl
  | bool b => rfl
  | num n => rfl
  | str s => rfl
termination_by sizeOf v

theorem noStrayId_patchEntries (es : List (Str × JSONValue)) :
    noStrayIdEntries (patchEntries es false) = true := by
  cases es with
  | nil => rfl
  | cons e rest =>
    obtain ⟨k, v⟩ := e
    have ih := noStrayId_patchEntries rest
    have ihv := noStrayId_patchValue v
    by_cases h1 : k = "$id".data
    · subst h1
      simp +decide [patchEntries, ih]
    · by_cases h2 : k = "$ref".data
      · subst h2
        cases v <;> simp +decide [patchEntries, noStrayIdEntries, ih]
      · by_cases h3 : k = "additionalProperties".data
        · subst h3
          cases v with
          | bool b =>
            cases b <;>
              simp +decide [patchEntries, noStrayIdEntries, ih, ihv]
          | null => simp +decide [patchEntries, noStrayIdEntries, ih, ihv]
          | num n => simp +decide [patchEntries, noStrayIdEntries, ih, ihv]
          | str s => simp +decide [patchEntries, noStrayIdEntries, ih, ihv]
          | arr xs => simp +decide [patchEntries, noStrayIdEntries, ih, ihv]
          | obj es2 => simp +decide [patchEntries, noStrayIdEntries, ih, ihv]
        · simp [patchEntries, noStrayIdEntries, ih, ihv, h1, h2, h3]
termination_by sizeOf es

theorem noStrayId_patchItems (xs : List JSONValue) :
    noStrayIdItems (patchItems xs) = true := by
  cases xs with
  | nil => rfl
  | cons x rest =>
    rw [patchItems, noStrayIdItems, noStrayId_patchValue x,
      noStrayId_patchItems rest]
    rfl
termination_by sizeOf xs
end

theorem noStrayIdRoot_patchEntries (es : List (Str × JSONValue)) :
    noStrayIdRootEntries (patchEntries es true) = true := by
  induction es with
  | nil => rfl
  | cons e rest ih =>
    obtain ⟨k, v⟩ := e
    have ihv := noStrayId_patchValue v
    by_cases h1 : k = "$id".data
    · subst h1
      simp +decide [patchEntries, noStrayIdRootEntries, ih]
    · by_cases h2 : k = "$ref".data
      · subst h2
        cases v <;> simp +decide [patchEntries, noStrayIdRootEntries, ih]
      · by_cases h3 : k = "additionalProperties".data
        · subst h3
          cases v with
          | bool b =>
            cases b <;>
              simp +decide [patchEntries, noStrayIdRootEntries, ih, ihv]
          | null => simp +decide [patchEntries, noStrayIdRootEntries, ih, ihv]
          | num n => simp +decide [patchEntries, noStrayIdRootEntries, ih, ihv]
          | str s => simp +decide [patchEntries, noStrayIdRootEntries, ih, ihv]
          | arr xs => simp +decide [patchEntries, noStrayIdRootEntries, ih, ihv]
          | obj es2 =>
            simp +decide [patchEntries, noStrayIdRootEntries, ih, ihv]
        · simp [patchEntries, noStrayIdRootEntries, ih, ihv, h1, h2, h3]

/-- Counterexample to C3: an object nested under a non-string `$ref`
value is never visited, so its `$id` key survives the pass: the document
is returned entirely unchanged, `$id` included. -/
theorem claim_C3_counterexample :
    patchSchemaInPlace (JSONValue.obj [("a".data, JSONValue.obj
        [("$ref".data, JSONValue.obj
          [("$id".data, JSONValue.str "x".data)])])])
      = .ok (JSONValue.obj [("a".data, JSONValue.obj
        [("$ref".data, JSONValue.obj
          [("$id".data, JSONValue.str "x".data)])])]) := by
  rfl

/-- C3 as amended: the pass deletes `$id` from every visited non-root
object; the values of `$id` and `$ref` keys are not visited (objects
there keep their `$id`, as the counterexample shows). -/
theorem claim_C3_no_stray_id (v : JSONValue) :
    noStrayIdRoot (patchValue v true) = true
    ∧ noStrayIdVal (patchValue v false) = true := by
  constructor
  · cases v with
    | obj es => rw [patchValue, noStrayIdRoot, noStrayIdRoot_patchEntries es]
    | arr xs => rw [patchValue, noStrayIdRoot, noStrayId_patchItems xs]
    | null => rfl
    | bool b => rfl
    | num n => rfl
    | str s => rfl
  · exact noStrayId_patchValue v

theorem lookupKey_setKey {α : Type} (es : List (Str × α)) (k p : Str) (v : α) :
    lookupKey (setKey es k v) p
      = if k = p then some v else lookupKey es p := by
  induction es with
  | nil =>
    by_cases h : k = p
    · simp [setKey, lookupKey, h]
    · simp [setKey, lookupKey, h]
  | cons e rest ih =>
    obtain ⟨k0, v0⟩ := e
    by_cases h : k0 = k
    · subst h
      by_cases h2 : k0 = p
      · simp [setKey, lookupKey, h2]
      · simp [setKey, lookupKey, h2]
    · by_cases h2 : k0 = p
      · subst h2
        have hkp : ¬ k = k0 := fun hh => h hh.symm
        simp [setKey, lookupKey, h, hkp]
      · simp [setKey, lookupKey, h, h2, ih]

theorem lookupKey_filter_under (d : Str) (fs : List (Str × FileContent))
    (p : Str) (hp : underDir d p = true) :
    lookupKey (fs.filter (fun pc => !underDir d pc.1)) p = none := by
  induction fs with
  | nil => rfl
  | cons e rest ih =>
    obtain ⟨q, c⟩ := e
    cases hq : underDir d q with
    | false =>
      have hqp : ¬ q = p := fun hh => by
        rw [hh, hp] at hq
        exact Bool.false_ne_true hq.symm
      simp [List.filter, hq, lookupKey, hqp, ih]
    | true =>
      simp [List.filter, hq, ih]

theorem lookupKey_filter_not_under (d : Str) (fs : List (Str × FileContent))
    (p : Str) (hp : underDir d p = false) :
    lookupKey (fs.filter (fun pc => !underDir d pc.1)) p
      = lookupKey fs p := by
  induction fs with
  | nil => rfl
  | cons e rest ih =>
    obtain ⟨q, c⟩ := e
    cases hq : underDir d q with
    | false =>
      by_cases hqp : q = p
      · subst hqp
        simp [List.filter, hq, lookupKey]
      · simp [List.filter, hq, lookupKey, hqp, ih]
    | true =>
      have hqp : ¬ q = p := fun hh => by
        rw [hh, hp] at hq
        exact Bool.false_ne_true hq
      simp [List.filter, hq, lookupKey, hqp, ih]

theorem applyOps_writes_not_under (dir p : Str)
    (hp : underDir dir p = false) :
    ∀ ops : List FSOp,
      (∀ op ∈ ops, ∃ q c, op = FSOp.write q c ∧ underDir dir q = true) →
      ∀ fs : List (Str × FileContent),
        lookupKey (applyOps fs ops) p = lookupKey fs p := by
  intro ops
  induction ops with
  | nil =>
    intro _ fs
    rfl
  | cons op rest ih =>
    intro hw fs
    obtain ⟨q, c, hop, hq⟩ := hw op (List.mem_cons_self op rest)
    subst hop
    have hqp : ¬ q = p := fun hh => by
      rw [hh, hp] at hq
      exact Bool.false_ne_true hq
    rw [applyOps, List.foldl_cons,
      show applyOp fs (FSOp.write q c) = setKey fs q c from rfl,
      show List.foldl applyOp (setKey fs q c) rest
        = applyOps (setKey fs q c) rest from rfl,
      ih (fun o ho => hw o (List.mem_cons_of_mem _ ho)) (setKey fs q c),
      lookupKey_setKey, if_neg hqp]

theorem applyOps_congr_at (p : Str) (ops : List FSOp)
    (fs1 fs2 : List (Str × FileContent))
    (h : lookupKey fs1 p = lookupKey fs2 p) :
    lookupKey (applyOps fs1 ops) p = lookupKey (applyOps fs2 ops) p := by
  induction ops generalizing fs1 fs2 with
  | nil => exact h
  | cons op rest ih =>
    rw [applyOps, applyOps, List.foldl_cons, List.foldl_cons]
    apply ih
    cases op with
    | removeAll d =>
      cases hp : underDir d p with
      | true =>
        rw [show applyOp fs1 (FSOp.removeAll d)
            = fs1.filter (fun pc => !underDir d pc.1) from rfl,
          show applyOp fs2 (FSOp.removeAll d)
            = fs2.filter (fun pc => !underDir d pc.1) from rfl,
          lookupKey_filter_under d fs1 p hp, lookupKey_filter_under d fs2 p hp]
      | false =>
        rw [show applyOp fs1 (FSOp.removeAll d)
            = fs1.filter (fun pc => !underDir d pc.1) from rfl,
          show applyOp fs2 (FSOp.removeAll d)
            = fs2.filter (fun pc => !underDir d pc.1) from rfl,
          lookupKey_filter_not_under d fs1 p hp,
          lookupKey_filter_not_under d fs2 p hp]
        exact h
    | write q c =>
      rw [show applyOp fs1 (FSOp.write q c) = setKey fs1 q c from rfl,
        show applyOp fs2 (FSOp.write q c) = setKey fs2 q c from rfl,
        lookupKey_setKey, lookupKey_setKey]
      by_cases hqp : q = p
      · rw [if_pos hqp, if_pos hqp]
      · rw [if_neg hqp, if_neg hqp]
        exact h

theorem underDir_joinPath (dir x : Str) :
    underDir dir (joinPath dir x) = true := by
  unfold underDir joinPath
  have hx : dir ++ '/' :: x = (dir ++ ['/']) ++ x := by simp
  rw [hx]
  have : (dir ++ ['/']).isPrefixOf ((dir ++ ['/']) ++ x) = true := by
    rw [List.isPrefixOf_iff_prefix]
    exact ⟨x, rfl⟩
  rw [this, Bool.or_true]

theorem collectWrites_writes (dir ver : Str) :
    ∀ (files : List (Str × List (Str × JSONValue)))
      (res : List Str × List FSOp),
      collectWrites dir ver files = .ok res →
      ∀ op ∈ res.2, ∃ x c, op = FSOp.write (joinPath dir x) c := by
  intro files
  induction files with
  | nil =>
    intro res h op hop
    rw [collectWrites] at h
    injection h with h2
    rw [← h2] at hop
    simp at hop
  | cons f rest ih =>
    intro res h op hop
    obtain ⟨path, m⟩ := f
    rw [collectWrites] at h
    cases hws : writeSchemaResult
        (replaceFirst path ".spec.yml".data ".jsonschema.json".data) m ver with
    | error e =>
      rw [hws] at h
      exact Except.noConfusion h
    | ok content =>
      rw [hws] at h
      cases hcw : collectWrites dir ver rest with
      | error e =>
        rw [hcw] at h
        exact Except.noConfusion h
      | ok pr =>
        obtain ⟨written, ops⟩ := pr
        rw [hcw] at h
        injection h with h2
        rw [← h2] at hop
        rcases List.mem_cons.mp hop with hop1 | hop2
        · exact ⟨replaceFirst path ".spec.yml".data ".jsonschema.json".data,
            FileContent.schemaDoc content, hop1⟩
        · exact ih (written, ops) hcw op hop2

theorem writeSchemasOps_shape (outDir refName : Str)
    (files : List (Str × List (Str × JSONValue))) (l : List FSOp)
    (h : writeSchemasOps outDir refName files = .ok l) :
    ∃ rest, l = FSOp.removeAll (joinPath (joinPath outDir
        (versionLabel refName)) "jsonschema".data) :: rest
      ∧ ∀ op ∈ rest, ∃ q c, op = FSOp.write q c
          ∧ underDir (joinPath (joinPath outDir (versionLabel refName))
              "jsonschema".data) q = true := by
  rw [writeSchemasOps] at h
  cases hcw : collectWrites (joinPath (joinPath outDir
      (versionLabel refName)) "jsonschema".data) (versionLabel refName)
      (files.filter
        (fun f => ".spec.yml".data.isSuffixOf (basename f.1))) with
  | error e =>
    rw [hcw] at h
    exact Except.noConfusion h
  | ok pr =>
    obtain ⟨written, ops⟩ := pr
    rw [hcw] at h
    dsimp only at h
    have hops : ∀ op ∈ ops, ∃ q c, op = FSOp.write q c
        ∧ underDir (joinPath (joinPath outDir (versionLabel refName))
            "jsonschema".data) q = true := by
      intro op hop
      obtain ⟨x, c, hxc⟩ := collectWrites_writes _ _ _ (written, ops) hcw op hop
      exact ⟨joinPath (joinPath (joinPath outDir (versionLabel refName))
        "jsonschema".data) x, c, hxc, underDir_joinPath _ x⟩
    by_cases hman : written.contains "manifest.jsonschema.json".data
    · rw [if_pos hman] at h
      injection h with h2
      exact ⟨ops, h2.symm, hops⟩
    · rw [if_neg hman] at h
      cases hcm : combinedManifestSchema written (versionLabel refName) with
      | error e =>
        rw [hcm] at h
        exact Except.noConfusion h
      | ok s =>
        rw [hcm] at h
        injection h with h2
        refine ⟨ops ++ [FSOp.write (joinPath (joinPath (joinPath outDir
            (versionLabel refName)) "jsonschema".data)
            "manifest.jsonschema.json".data) (.manifestDoc s)], ?_, ?_⟩
        · rw [← h2]
          simp
        · intro op hop
          rcases List.mem_append.mp hop with hop1 | hop2
          · exact hops op hop1
          · rw [List.mem_singleton.mp hop2]
            exact ⟨_, _, rfl, underDir_joinPath _ _⟩

/-- C10: a successful multi-file write for one version first removes the
entire version output directory and then writes only beneath it, so
paths outside the directory keep their previous content, and the content
below the directory is exactly what the run itself writes (independent
of any prior state: no stale file survives). -/
theorem claim_C10_output_dir_fresh (outDir refName : Str)
    (files : List (Str × List (Str × JSONValue))) (l : List FSOp)
    (fs : List (Str × FileContent)) (p : Str)
    (h : writeSchemasOps outDir refName files = .ok l) :
    (underDir (joinPath (joinPath outDir (versionLabel refName))
        "jsonschema".data) p = false →
      lookupKey (applyOps fs l) p = lookupKey fs p)
    ∧ (underDir (joinPath (joinPath outDir (versionLabel refName))
        "jsonschema".data) p = true →
      lookupKey (applyOps fs l) p = lookupKey (applyOps [] l) p) := by
  obtain ⟨rest, rfl, hw⟩ := writeSchemasOps_shape outDir refName files l h
  constructor
  · intro hp
    rw [show applyOps fs (FSOp.removeAll (joinPath (joinPath outDir
        (versionLabel refName)) "jsonschema".data) :: rest)
      = applyOps (fs.filter (fun pc => !underDir (joinPath (joinPath outDir
          (versionLabel refName)) "jsonschema".data) pc.1)) rest from rfl]
    rw [applyOps_writes_not_under _ p hp rest hw _]
    exact lookupKey_filter_not_under _ fs p hp
  · intro hp
    rw [show applyOps fs (FSOp.removeAll (joinPath (joinPath outDir
        (versionLabel refName)) "jsonschema".data) :: rest)
      = applyOps (fs.filter (fun pc => !underDir (joinPath (joinPath outDir
          (versionLabel refName)) "jsonschema".data) pc.1)) rest from rfl]
    rw [show applyOps ([] : List (Str × FileContent))
        (FSOp.removeAll (joinPath (joinPath outDir
          (versionLabel refName)) "jsonschema".data) :: rest)
      = applyOps [] rest from rfl]
    apply applyOps_congr_at
    rw [lookupKey_filter_under _ fs p hp]
    rfl

/-- Witness for C10: a concrete run over one spec file leaves a file
outside the version directory untouched. -/
theorem claim_C10_witness :
    lookupKey (applyOps [("keep.txt".data, FileContent.raw "old".data)]
        ((writeSchemasOps "out".data "v3.0.0".data
          [("integration/manifest.spec.yml".data,
            [("spec".data, JSONValue.obj [])])]).toOption.getD []))
      "keep.txt".data = some (FileContent.raw "old".data) :=
  Eq.trans
    ((claim_C10_output_dir_fresh "out".data "v3.0.0".data
      [("integration/manifest.spec.yml".data,
        [("spec".data, JSONValue.obj [])])]
      ((writeSchemasOps "out".data "v3.0.0".data
        [("integration/manifest.spec.yml".data,
          [("spec".data, JSONValue.obj [])])]).toOption.getD [])
      [("keep.txt".data, FileContent.raw "old".data)]
      "keep.txt".data (by rfl)).1 (by rfl))
    rfl

theorem pairwise_orderedInsert_local {α : Type} (r : α → α → Prop)
    [DecidableRel r] (a : α) (l : List α)
    (htot : ∀ x ∈ l, r a x ∨ r x a)
    (htrans : ∀ x ∈ l, ∀ y ∈ l, r a x → r x y → r a y)
    (hs : List.Pairwise r l) :
    List.Pairwise r (List.orderedInsert r a l) := by
  induction l with
  | nil => simp
  | cons b t ih =>
    rw [List.orderedInsert]
    obtain ⟨hbt, hst⟩ := List.pairwise_cons.mp hs
    by_cases hab : r a b
    · rw [if_pos hab]
      rw [List.pairwise_cons]
      refine ⟨?_, hs⟩
      intro x hx
      rcases List.mem_cons.mp hx with hxb | hxt
      · rw [hxb]
        exact hab
      · exact htrans b (by simp) x (by simp [hxt]) hab (hbt x hxt)
    · rw [if_neg hab]
      rw [List.pairwise_cons]
      constructor
      · intro x hx
        rcases (List.mem_orderedInsert r).mp hx with hxa | hxt
        · rw [hxa]
          rcases htot b (by simp) with h1 | h1
          · exact absurd h1 hab
          · exact h1
        · exact hbt x hxt
      · exact ih (fun x hx => htot x (by simp [hx]))
          (fun x hx y hy hax hxy =>
            htrans x (by simp [hx]) y (by simp [hy]) hax hxy)
          hst

theorem pairwise_insertionSort_local {α : Type} (r : α → α → Prop)
    [DecidableRel r] (l : List α)
    (htot : ∀ x ∈ l, ∀ y ∈ l, r x y ∨ r y x)
    (htrans : ∀ x ∈ l, ∀ y ∈ l, ∀ z ∈ l, r x y → r y z → r x z) :
    List.Pairwise r (List.insertionSort r l) := by
  induction l with
  | nil => simp
  | cons a t ih =>
    rw [List.insertionSort]
    have hmem : ∀ x ∈ List.insertionSort r t, x ∈ t := fun x hx =>
      (List.perm_insertionSort r t).mem_iff.mp hx
    apply pairwise_orderedInsert_local
    · intro x hx
      exact htot a (by simp) x (by simp [hmem x hx])
    · intro x hx y hy hax hxy
      exact htrans a (by simp) x (by simp [hmem x hx]) y
        (by simp [hmem y hy]) hax hxy
    · exact ih (fun x hx y hy => htot x (by simp [hx]) y (by simp [hy]))
        (fun x hx y hy z hz => htrans x (by simp [hx]) y (by simp [hy]) z
          (by simp [hz]))

theorem semverLess_iff_empty (a b : Semver) (ha : a.preRelease = [])
    (hb : b.preRelease = []) :
    semverLess a b = true
      ↔ (a.major < b.major ∨ (a.major = b.major ∧ (a.minor < b.minor
          ∨ (a.minor = b.minor ∧ a.patch < b.patch)))) := by
  unfold semverLess
  rw [ha, hb]
  split_ifs <;> simp_all [strLt]

theorem tagFilter_eq_some (t0 : Str) (p : Semver × Str) :
    (match tagToSemver t0 with
     | none => none
     | some v => if v.preRelease ≠ [] then none else some (v, t0)) = some p
    ↔ tagToSemver t0 = some p.1 ∧ p.1.preRelease = [] ∧ p.2 = t0 := by
  cases h : tagToSemver t0 with
  | none => simp
  | some v =>
    by_cases hp : v.preRelease = []
    · simp only [hp, ne_eq, not_true_eq_false, if_neg, Option.some.injEq,
        not_false_eq_true, if_true]
      constructor
      · intro he
        rw [← he]
        exact ⟨rfl, hp, rfl⟩
      · intro ⟨h1, h2, h3⟩
        obtain ⟨p1, p2⟩ := p
        simp only at h1 h3
        rw [h1, ← h3]
    · simp only [hp, ne_eq, not_false_eq_true, if_pos]
      constructor
      · intro he
        exact absurd he (by simp)
      · intro ⟨h1, h2, h3⟩
        injection h1 with h1
        rw [← h1] at h2
        exact absurd h2 hp

theorem mem_GetReleaseTags (tags : List Str) (t : Str) :
    t ∈ GetReleaseTags tags
    ↔ ∃ v, tagToSemver t = some v ∧ v.preRelease = [] ∧ t ∈ tags := by
  unfold GetReleaseTags
  constructor
  · intro ht
    obtain ⟨p, hp, hpt⟩ := List.mem_map.mp ht
    have hp2 := (List.perm_insertionSort _ _).mem_iff.mp hp
    obtain ⟨t0, ht0, hf⟩ := List.mem_filterMap.mp hp2
    obtain ⟨h1, h2, h3⟩ := (tagFilter_eq_some t0 p).mp hf
    have htt : t0 = t := by rw [← h3, hpt]
    refine ⟨p.1, ?_, h2, ?_⟩
    · rw [← htt]
      exact h1
    · rw [← htt]
      exact ht0
  · intro ⟨v, hv, hpre, htags⟩
    apply List.mem_map.mpr
    refine ⟨(v, t), ?_, rfl⟩
    apply (List.perm_insertionSort _ _).mem_iff.mpr
    apply List.mem_filterMap.mpr
    exact ⟨t, htags, (tagFilter_eq_some t (v, t)).mpr ⟨hv, hpre, rfl⟩⟩

theorem sorted_GetReleaseTags (tags : List Str) :
    List.Pairwise (fun t u => ∃ vt vu, tagToSemver t = some vt
      ∧ tagToSemver u = some vu ∧ semverLess vu vt = false)
      (GetReleaseTags tags) := by
  unfold GetReleaseTags
  rw [List.pairwise_map]
  have hall2 : ∀ p ∈ (tags.filterMap (fun t =>
      match tagToSemver t with
      | none => none
      | some v => if v.preRelease ≠ [] then none else some (v, t))),
      tagToSemver p.2 = some p.1 ∧ p.1.preRelease = [] := by
    intro p hp
    obtain ⟨t0, ht0, hf⟩ := List.mem_filterMap.mp hp
    obtain ⟨h1, h2, h3⟩ := (tagFilter_eq_some t0 p).mp hf
    refine ⟨?_, h2⟩
    rw [h3]
    exact h1
  have hall : ∀ p ∈ List.insertionSort
      (fun a b : Semver × Str => (!(semverLess b.1 a.1)) = true)
      (tags.filterMap (fun t =>
        match tagToSemver t with
        | none => none
        | some v => if v.preRelease ≠ [] then none else some (v, t))),
      tagToSemver p.2 = some p.1 ∧ p.1.preRelease = [] := by
    intro p hp
    exact hall2 p ((List.perm_insertionSort _ _).mem_iff.mp hp)
  have hsorted : List.Pairwise
      (fun a b : Semver × Str => (!(semverLess b.1 a.1)) = true)
      (List.insertionSort
        (fun a b : Semver × Str => (!(semverLess b.1 a.1)) = true)
        (tags.filterMap (fun t =>
          match tagToSemver t with
          | none => none
          | some v => if v.preRelease ≠ [] then none else some (v, t)))) := by
    apply pairwise_insertionSort_local
    · intro x hx y hy
      have hx2 := (hall2 x hx).2
      have hy2 := (hall2 y hy).2
      have hiff1 := semverLess_iff_empty y.1 x.1 hy2 hx2
      have hiff2 := semverLess_iff_empty x.1 y.1 hx2 hy2
      cases hb : semverLess y.1 x.1 with
      | false => exact Or.inl (by rfl)
      | true =>
        refine Or.inr ?_
        have hp := hiff1.mp hb
        have hc : semverLess x.1 y.1 = false := by
          cases hc2 : semverLess x.1 y.1 with
          | false => rfl
          | true =>
            have hq := hiff2.mp hc2
            omega
        rw [hc]
        rfl
    · intro x hx y hy z hz hxy hyz
      have hx2 := (hall2 x hx).2
      have hy2 := (hall2 y hy).2
      have hz2 := (hall2 z hz).2
      have h1 : semverLess y.1 x.1 = false := by simpa using hxy
      have h2 : semverLess z.1 y.1 = false := by simpa using hyz
      have hc : semverLess z.1 x.1 = false := by
        cases hc2 : semverLess z.1 x.1 with
        | false => rfl
        | true =>
          have hq := (semverLess_iff_empty z.1 x.1 hz2 hx2).mp hc2
          have hn1 : ¬ (semverLess y.1 x.1 = true) := by rw [h1]; simp
          have hn2 : ¬ (semverLess z.1 y.1 = true) := by rw [h2]; simp
          rw [semverLess_iff_empty y.1 x.1 hy2 hx2] at hn1
          rw [semverLess_iff_empty z.1 y.1 hz2 hy2] at hn2
          omega
      rw [hc]
      rfl
  exact hsorted.imp_of_mem (fun {a b} ha hb hr =>
    ⟨a.1, b.1, (hall a ha).1, (hall b hb).1, by simpa using hr⟩)

/-- C5: discovery over the example tags yields exactly
`[v1.2.0, v1.3.0, v1.10.0]`; in general every returned tag is an input
tag parsing as a `v`-semver with empty pre-release, every such input tag
is returned, and the returned list is sorted ascending by numeric
semantic-version comparison. -/
theorem claim_C5_release_tag_discovery (tags : List Str) :
    GetReleaseTags ["v1.2.0".data, "v1.10.0".data, "v2.0.0-beta1".data,
        "v1.3.0".data]
      = ["v1.2.0".data, "v1.3.0".data, "v1.10.0".data]
    ∧ (∀ t ∈ GetReleaseTags tags,
        t ∈ tags ∧ ∃ v, tagToSemver t = some v ∧ v.preRelease = [])
    ∧ (∀ t ∈ tags, ∀ v, tagToSemver t = some v → v.preRelease = [] →
        t ∈ GetReleaseTags tags)
    ∧ List.Pairwise (fun t u => ∃ vt vu, tagToSemver t = some vt
        ∧ tagToSemver u = some vu ∧ semverLess vu vt = false)
      (GetReleaseTags tags) := by
  refine ⟨by decide, ?_, ?_, sorted_GetReleaseTags tags⟩
  · intro t ht
    obtain ⟨v, h1, h2, h3⟩ := (mem_GetReleaseTags tags t).mp ht
    exact ⟨h3, v, h1, h2⟩
  · intro t ht v hv hpre
    exact (mem_GetReleaseTags tags t).mpr ⟨v, hv, hpre, ht⟩

/-- Witness for C5: the example tag `v1.3.0` is discovered, and so is a
tag with dotted build metadata, `v1.0.0+build.5`, which go-semver parses
through its dotted-identifier pattern with an empty pre-release. -/
theorem claim_C5_witness :
    "v1.3.0".data ∈ GetReleaseTags
        ["v1.2.0".data, "v1.10.0".data, "v2.0.0-beta1".data, "v1.3.0".data]
      ∧ "v1.0.0+build.5".data ∈ GetReleaseTags ["v1.0.0+build.5".data] :=
  ⟨(claim_C5_release_tag_discovery
      ["v1.2.0".data, "v1.10.0".data, "v2.0.0-beta1".data,
        "v1.3.0".data]).2.2.1
    "v1.3.0".data (by decide)
    { major := 1, minor := 3, patch := 0, preRelease := [], metadata := [] }
    (by decide) (by rfl),
   (claim_C5_release_tag_discovery ["v1.0.0+build.5".data]).2.2.1
    "v1.0.0+build.5".data (by decide)
    { major := 1, minor := 0, patch := 0, preRelease := [],
      metadata := "build.5".data }
    (by decide) (by rfl)⟩

theorem replaceFirst_of_no_occurrence (s pat rep : Str) (h : ¬ pat <:+: s) :
    replaceFirst s pat rep = s := by
  induction s with
  | nil => rfl
  | cons c rest ih =>
    have hpre : pat.isPrefixOf (c :: rest) = false := by
      cases hp : pat.isPrefixOf (c :: rest) with
      | false => rfl
      | true => exact absurd (List.isPrefixOf_iff_prefix.mp hp).isInfix h
    have h2 : ¬ pat <:+: rest := fun hh =>
      h (List.infix_cons_iff.mpr (Or.inr hh))
    rw [replaceFirst, if_neg (by simp [hpre]), ih h2]

theorem takeWhile_hash (b r : Str) (hb : ¬ '#' ∈ b) :
    (b ++ '#' :: r).takeWhile (fun c => c ≠ '#') = b := by
  induction b with
  | nil => simp [List.takeWhile_cons]
  | cons c bs ih =>
    have hc : c ≠ '#' := fun he => hb (by rw [he]; exact List.mem_cons_self _ _)
    have hbs : ¬ '#' ∈ bs := fun hh => hb (by simp [hh])
    simp only [List.cons_append, List.takeWhile_cons]
    rw [if_pos (by simp [hc]), ih hbs]

theorem dropWhile_hash2 (b r : Str) (hb : ¬ '#' ∈ b) :
    (b ++ '#' :: r).dropWhile (fun c => c ≠ '#') = '#' :: r := by
  induction b with
  | nil => simp [List.dropWhile_cons]
  | cons c bs ih =>
    have hc : c ≠ '#' := fun he => hb (by rw [he]; exact List.mem_cons_self _ _)
    have hbs : ¬ '#' ∈ bs := fun hh => hb (by simp [hh])
    simp only [List.cons_append, List.dropWhile_cons]
    rw [if_pos (by simp [hc]), ih hbs]

theorem encodeCarets_eq_nil_iff (l : Str) : encodeCarets l = [] ↔ l = [] := by
  cases l with
  | nil => simp [encodeCarets]
  | cons c rest =>
    simp only [encodeCarets]
    by_cases hc : c = '^' <;> simp [hc]

theorem caret_not_mem_encodeCarets (l : Str) : ¬ '^' ∈ encodeCarets l := by
  induction l with
  | nil => simp [encodeCarets]
  | cons c rest ih =>
    by_cases hc : c = '^'
    · simp [encodeCarets, hc, ih]
    · simp [encodeCarets, hc, ih]
      exact fun he => hc he.symm

theorem encodeCarets_of_no_caret (l : Str) (h : ¬ '^' ∈ l) :
    encodeCarets l = l := by
  induction l with
  | nil => rfl
  | cons c rest ih =>
    have hc : ¬ c = '^' := fun he => h (by simp [he])
    have hr : ¬ '^' ∈ rest := fun hh => h (by simp [hh])
    simp [encodeCarets, hc, ih hr]

theorem encodeFragment_idem (s : Str) :
    encodeFragment (encodeFragment s) = encodeFragment s := by
  by_cases h1 : s.contains '#' = false
  · have hs : encodeFragment s = s := by rw [encodeFragment, if_pos h1]
    rw [hs, hs]
  · have h1t : s.contains '#' = true := by simpa using h1
    by_cases h2 : (s.dropWhile (fun c => c ≠ '#')).drop 1 = []
    · have hs : encodeFragment s = s := by
        rw [encodeFragment, if_neg (by simpa using h1t), if_pos h2]
      rw [hs, hs]
    · have hs : encodeFragment s = s.takeWhile (fun c => c ≠ '#')
          ++ '#' :: encodeCarets ((s.dropWhile (fun c => c ≠ '#')).drop 1) := by
        rw [encodeFragment, if_neg (by simpa using h1t), if_neg h2]
      rw [hs]
      have hbnm : ¬ '#' ∈ s.takeWhile (fun c => c ≠ '#') := fun hh => by
        have := List.mem_takeWhile_imp hh
        simp at this
      have hcont : (s.takeWhile (fun c => c ≠ '#')
          ++ '#' :: encodeCarets ((s.dropWhile (fun c => c ≠ '#')).drop 1)).contains '#'
          = true := by simp
      have hdw := dropWhile_hash2 (s.takeWhile (fun c => c ≠ '#'))
        (encodeCarets ((s.dropWhile (fun c => c ≠ '#')).drop 1)) hbnm
      have hfrag : ((s.takeWhile (fun c => c ≠ '#')
          ++ '#' :: encodeCarets ((s.dropWhile (fun c => c ≠ '#')).drop 1)).dropWhile
            (fun c => c ≠ '#')).drop 1
          = encodeCarets ((s.dropWhile (fun c => c ≠ '#')).drop 1) := by
        rw [hdw]
        rfl
      have hfn : ¬ (encodeCarets ((s.dropWhile (fun c => c ≠ '#')).drop 1) = []) :=
        fun hh => h2 ((encodeCarets_eq_nil_iff _).mp hh)
      rw [encodeFragment, if_neg (by simp), if_neg (by rw [hfrag]; exact hfn),
        takeWhile_hash _ _ hbnm, hfrag,
        encodeCarets_of_no_caret _ (caret_not_mem_encodeCarets _)]

theorem head_of_prefix_cons (pat : Str) (hne : pat ≠ []) (a : Char) (l : Str)
    (h : pat <+: a :: l) : ∃ pr, pat = a :: pr ∧ pr <+: l := by
  cases pat with
  | nil => exact absurd rfl hne
  | cons p pr =>
    rcases List.prefix_cons_iff.mp h with h1 | ⟨t, ht, htp⟩
    · exact absurd h1 (by simp)
    · injection ht with h2 h3
      refine ⟨pr, by rw [h2], ?_⟩
      rw [h3]
      exact htp

theorem prefix_no_sep (pat : Str) (hsep : ¬ '#' ∈ pat) :
    ∀ u y : Str, pat <+: u ++ '#' :: y → pat <+: u := by
  induction pat with
  | nil => exact fun u _ _ => List.nil_prefix
  | cons p pr ih =>
    intro u y hp
    cases u with
    | nil =>
      obtain ⟨pr2, hpat, _⟩ := head_of_prefix_cons (p :: pr) (by simp) '#' y hp
      injection hpat with h1 _
      exact absurd (by rw [h1]; exact List.mem_cons_self _ _) hsep
    | cons a u2 =>
      obtain ⟨pr2, hpat, hpr⟩ := head_of_prefix_cons (p :: pr) (by simp) a
        (u2 ++ '#' :: y) hp
      injection hpat with h1 h2
      have hsep2 : ¬ '#' ∈ pr := fun hh => hsep (by simp [hh])
      have := ih hsep2 u2 y (by rw [h2]; exact hpr)
      rw [h1]
      obtain ⟨w, hw⟩ := this
      exact ⟨w, by rw [← hw]; rfl⟩

theorem infix_append_sep (pat : Str) (hne : pat ≠ []) (hsep : ¬ '#' ∈ pat) :
    ∀ x y : Str, pat <:+: x ++ '#' :: y → pat <:+: x ∨ pat <:+: y := by
  intro x
  induction x with
  | nil =>
    intro y h
    rcases List.infix_cons_iff.mp h with h1 | h2
    · obtain ⟨pr, hpat, _⟩ := head_of_prefix_cons pat hne '#' y h1
      exact absurd (by rw [hpat]; exact List.mem_cons_self _ _) hsep
    · exact Or.inr h2
  | cons a x2 ih =>
    intro y h
    rcases List.infix_cons_iff.mp h with h1 | h2
    · have h3 : pat <+: (a :: x2) ++ '#' :: y := h1
      exact Or.inl (prefix_no_sep pat hsep (a :: x2) y h3).isInfix
    · rcases ih y h2 with h3 | h3
      · exact Or.inl (List.infix_cons_iff.mpr (Or.inr h3))
      · exact Or.inr h3

theorem prefix_encodeCarets (pat : Str)
    (hch : ∀ ch ∈ pat, ch ≠ '^' ∧ ch ≠ '%' ∧ ch ≠ '5' ∧ ch ≠ 'E') :
    ∀ l : Str, pat <+: encodeCarets l → pat <+: l := by
  induction pat with
  | nil => exact fun l _ => List.nil_prefix
  | cons p pr ih =>
    intro l hp
    cases l with
    | nil => simp [encodeCarets] at hp
    | cons c l2 =>
      by_cases hc : c = '^'
      · subst hc
        have hp2 : p :: pr <+: '%' :: '5' :: 'E' :: encodeCarets l2 := by
          simpa [encodeCarets] using hp
        obtain ⟨pr2, hpat, _⟩ := head_of_prefix_cons (p :: pr) (by simp) '%' _ hp2
        injection hpat with h1 _
        exact absurd h1 ((hch p (by simp)).2.1)
      · have hp2 : p :: pr <+: c :: encodeCarets l2 := by
          simpa [encodeCarets, hc] using hp
        obtain ⟨pr2, hpat, hpr⟩ := head_of_prefix_cons (p :: pr) (by simp) c _ hp2
        injection hpat with h1 h2
        have hch2 : ∀ ch ∈ pr, ch ≠ '^' ∧ ch ≠ '%' ∧ ch ≠ '5' ∧ ch ≠ 'E' :=
          fun ch hm => hch ch (by simp [hm])
        have := ih hch2 l2 (by rw [h2]; exact hpr)
        rw [h1]
        obtain ⟨w, hw⟩ := this
        exact ⟨w, by rw [← hw]; rfl⟩

theorem infix_encodeCarets (pat : Str) (hne : pat ≠ [])
    (hch : ∀ ch ∈ pat, ch ≠ '^' ∧ ch ≠ '%' ∧ ch ≠ '5' ∧ ch ≠ 'E') :
    ∀ l : Str, pat <:+: encodeCarets l → pat <:+: l := by
  intro l
  induction l with
  | nil =>
    intro h
    rw [show encodeCarets [] = [] from rfl] at h
    exact h
  | cons c l2 ih =>
    intro h
    by_cases hc : c = '^'
    · subst hc
      have h2 : pat <:+: '%' :: '5' :: 'E' :: encodeCarets l2 := by
        simpa [encodeCarets] using h
      rcases List.infix_cons_iff.mp h2 with h3 | h3
      · obtain ⟨pr, hpat, _⟩ := head_of_prefix_cons pat hne '%' _ h3
        exact absurd ((hch '%' (by rw [hpat]; exact List.mem_cons_self _ _)).2.1)
          (by simp)
      rcases List.infix_cons_iff.mp h3 with h4 | h4
      · obtain ⟨pr, hpat, _⟩ := head_of_prefix_cons pat hne '5' _ h4
        exact absurd ((hch '5' (by rw [hpat]; exact List.mem_cons_self _ _)).2.2.1)
          (by simp)
      rcases List.infix_cons_iff.mp h4 with h5 | h5
      · obtain ⟨pr, hpat, _⟩ := head_of_prefix_cons pat hne 'E' _ h5
        exact absurd ((hch 'E' (by rw [hpat]; exact List.mem_cons_self _ _)).2.2.2)
          (by simp)
      · exact List.infix_cons_iff.mpr (Or.inr (ih h5))
    · have h2 : pat <:+: c :: encodeCarets l2 := by
        simpa [encodeCarets, hc] using h
      rcases List.infix_cons_iff.mp h2 with h3 | h3
      · obtain ⟨pr, hpat, hpr⟩ := head_of_prefix_cons pat hne c _ h3
        have hch2 : ∀ ch ∈ pr, ch ≠ '^' ∧ ch ≠ '%' ∧ ch ≠ '5' ∧ ch ≠ 'E' :=
          fun ch hm => hch ch (by rw [hpat]; simp [hm])
        have hpr2 := prefix_encodeCarets pr hch2 l2 hpr
        rw [hpat]
        refine List.infix_cons_iff.mpr (Or.inl ?_)
        obtain ⟨w, hw⟩ := hpr2
        exact ⟨w, by rw [← hw]; rfl⟩
      · exact List.infix_cons_iff.mpr (Or.inr (ih h3))

theorem not_infix_encodeFragment (pat : Str) (hne : pat ≠ [])
    (hsep : ¬ '#' ∈ pat)
    (hch : ∀ ch ∈ pat, ch ≠ '^' ∧ ch ≠ '%' ∧ ch ≠ '5' ∧ ch ≠ 'E')
    (s : Str) (h : ¬ pat <:+: s) : ¬ pat <:+: encodeFragment s := by
  by_cases h1 : s.contains '#' = false
  · rw [encodeFragment, if_pos h1]
    exact h
  · have h1t : s.contains '#' = true := by simpa using h1
    by_cases h2 : (s.dropWhile (fun c => c ≠ '#')).drop 1 = []
    · rw [encodeFragment, if_neg (by simpa using h1t), if_pos h2]
      exact h
    · rw [encodeFragment, if_neg (by simpa using h1t), if_neg h2]
      intro hinf
      rcases infix_append_sep pat hne hsep _ _ hinf with h3 | h3
      · exact h (h3.trans (List.takeWhile_prefix _).isInfix)
      · have h4 := infix_encodeCarets pat hne hch _ h3
        have h5 : ((s.dropWhile (fun c => c ≠ '#')).drop 1) <:+: s :=
          ((List.drop_suffix 1 _).trans (List.dropWhile_suffix _)).isInfix
        exact h (h4.trans h5)

theorem refPatch_stable (s : Str) (h : refOnceRewritten s = true) :
    refPatch (refPatch s) = refPatch s := by
  have hno : ¬ (".spec.yml".data
      <:+: replaceFirst s ".spec.yml".data ".jsonschema.json".data) := by
    simpa [refOnceRewritten] using h
  have hno2 := not_infix_encodeFragment ".spec.yml".data (by decide) (by decide)
    (by decide) _ hno
  unfold refPatch
  rw [replaceFirst_of_no_occurrence _ _ _ hno2, encodeFragment_idem]

theorem patchEntries_append (l1 l2 : List (Str × JSONValue)) (r : Bool) :
    patchEntries (l1 ++ l2) r = patchEntries l1 r ++ patchEntries l2 r := by
  induction l1 with
  | nil => rfl
  | cons e t ih =>
    obtain ⟨k, v⟩ := e
    simp only [List.cons_append, patchEntries, List.append_eq]
    rw [ih, List.append_assoc]

mutual
theorem patchValue_idem : ∀ (v : JSONValue) (r : Bool),
    refsStable v = true → patchValue (patchValue v r) r = patchValue v r
  | .obj es, r, h => by
    have h2 : refsStableEntries es = true := h
    rw [patchValue, patchValue, patchEntries_idem es r h2]
  | .arr xs, _, h => by
    have h2 : refsStableItems xs = true := h
    rw [patchValue, patchValue, patchItems_idem xs h2]
  | .null, _, _ => rfl
  | .bool b, _, _ => rfl
  | .num n, _, _ => rfl
  | .str s, _, _ => rfl

theorem patchEntries_idem : ∀ (es : List (Str × JSONValue)) (r : Bool),
    refsStableEntries es = true →
      patchEntries (patchEntries es r) r = patchEntries es r
  | [], _, _ => rfl
  | (k, v) :: rest, r, h => by
    have hv : refsStable v = true := by
      cases v <;>
        (simp only [refsStableEntries, Bool.and_eq_true] at h
         exact h.1.2)
    have hrest : refsStableEntries rest = true := by
      cases v <;>
        (simp only [refsStableEntries, Bool.and_eq_true] at h
         exact h.2)
    have ihrest := patchEntries_idem rest r hrest
    have ihv := patchValue_idem v false hv
    by_cases h1 : k = "$id".data
    · subst h1
      cases r <;>
        simp +decide [patchEntries, patchEntries_append, ihrest]
    · by_cases h2 : k = "$ref".data
      · subst h2
        cases v with
        | str s =>
          have hstab : refOnceRewritten s = true := by
            simp only [refsStableEntries, Bool.and_eq_true] at h
            simpa using h.1.1
          simp +decide [patchEntries, patchEntries_append, ihrest,
            refPatch_stable s hstab]
        | null => simp +decide [patchEntries, patchEntries_append, ihrest]
        | bool b => simp +decide [patchEntries, patchEntries_append, ihrest]
        | num n => simp +decide [patchEntries, patchEntries_append, ihrest]
        | arr xs => simp +decide [patchEntries, patchEntries_append, ihrest]
        | obj es2 => simp +decide [patchEntries, patchEntries_append, ihrest]
      · by_cases h3 : k = "additionalProperties".data
        · subst h3
          cases v with
          | bool b =>
            cases b <;>
              simp +decide [patchEntries, patchEntries_append, ihrest, ihv,
                patchValue]
          | null =>
            simp +decide [patchEntries, patchEntries_append, ihrest, ihv,
              patchValue]
          | num n =>
            simp +decide [patchEntries, patchEntries_append, ihrest, ihv,
              patchValue]
          | str s =>
            simp +decide [patchEntries, patchEntries_append, ihrest, ihv,
              patchValue]
          | arr xs =>
            simp +decide [patchEntries, patchEntries_append, ihrest, patchValue]
            simpa [patchValue] using ihv
          | obj es2 =>
            simp +decide [patchEntries, patchEntries_append, ihrest, patchValue]
            simpa [patchValue] using ihv
        · cases v with
          | null =>
            simp [patchEntries, patchEntries_append, ihrest, patchValue,
              h1, h2, h3]
          | bool b =>
            simp [patchEntries, patchEntries_append, ihrest, patchValue,
              h1, h2, h3]
          | num n =>
            simp [patchEntries, patchEntries_append, ihrest, patchValue,
              h1, h2, h3]
          | str s =>
            simp [patchEntries, patchEntries_append, ihrest, patchValue,
              h1, h2, h3]
          | arr xs =>
            simp [patchEntries, patchEntries_append, ihrest, patchValue,
              h1, h2, h3]
            simpa [patchValue] using ihv
          | obj es2 =>
            simp [patchEntries, patchEntries_append, ihrest, patchValue,
              h1, h2, h3]
            simpa [patchValue] using ihv

theorem patchItems_idem : ∀ (xs : List JSONValue),
    refsStableItems xs = true → patchItems (patchItems xs) = patchItems xs
  | [], _ => rfl
  | x :: rest, h => by
    simp only [refsStableItems, Bool.and_eq_true] at h
    rw [patchItems, patchItems, patchValue_idem x false h.1,
      patchItems_idem rest h.2]
end

theorem setKey_self {α : Type} (es : List (Str × α)) (k : Str) (v : α)
    (h : lookupKey es k = some v) : setKey es k v = es := by
  induction es with
  | nil => simp [lookupKey] at h
  | cons e rest ih =>
    obtain ⟨k0, v0⟩ := e
    by_cases hq : k0 = k
    · subst hq
      rw [lookupKey, if_pos rfl] at h
      injection h with h
      rw [setKey, if_pos rfl, h]
    · rw [lookupKey, if_neg hq] at h
      rw [setKey, if_neg hq, ih h]

theorem lookupKey_patchEntries_other (es : List (Str × JSONValue)) (r : Bool)
    (k : Str) (h1 : k ≠ "$id".data) (h2 : k ≠ "$ref".data)
    (h3 : k ≠ "additionalProperties".data) :
    lookupKey (patchEntries es r) k
      = (lookupKey es k).map (fun v => patchValue v false) := by
  induction es with
  | nil => rfl
  | cons e rest ih =>
    obtain ⟨k0, v⟩ := e
    by_cases hq : k0 = k
    · subst hq
      have g1 : ¬ k0 = "$id".data := h1
      have g2 : ¬ k0 = "$ref".data := h2
      have g3 : ¬ k0 = "additionalProperties".data := h3
      simp [patchEntries, lookupKey, g1, g2, g3]
    · by_cases g1 : k0 = "$id".data
      · subst g1
        cases r <;> simp +decide [patchEntries, lookupKey, hq, ih]
      · by_cases g2 : k0 = "$ref".data
        · subst g2
          cases v <;> simp +decide [patchEntries, lookupKey, hq, ih]
        · by_cases g3 : k0 = "additionalProperties".data
          · subst g3
            cases v with
            | bool b =>
              cases b <;> simp +decide [patchEntries, lookupKey, hq, ih]
            | null => simp +decide [patchEntries, lookupKey, hq, ih]
            | num n => simp +decide [patchEntries, lookupKey, hq, ih]
            | str s => simp +decide [patchEntries, lookupKey, hq, ih]
            | arr xs => simp +decide [patchEntries, lookupKey, hq, ih]
            | obj es2 => simp +decide [patchEntries, lookupKey, hq, ih]
          · simp [patchEntries, lookupKey, hq, g1, g2, g3, ih]

theorem lookupKey_patchEntries_id_root (es : List (Str × JSONValue)) :
    lookupKey (patchEntries es true) "$id".data
      = lookupKey es "$id".data := by
  induction es with
  | nil => rfl
  | cons e rest ih =>
    obtain ⟨k0, v⟩ := e
    by_cases g1 : k0 = "$id".data
    · subst g1
      simp +decide [patchEntries, lookupKey]
    · by_cases g2 : k0 = "$ref".data
      · subst g2
        cases v <;> simp +decide [patchEntries, lookupKey, ih]
      · by_cases g3 : k0 = "additionalProperties".data
        · subst g3
          cases v with
          | bool b =>
            cases b <;> simp +decide [patchEntries, lookupKey, ih]
          | null => simp +decide [patchEntries, lookupKey, ih]
          | num n => simp +decide [patchEntries, lookupKey, ih]
          | str s => simp +decide [patchEntries, lookupKey, ih]
          | arr xs => simp +decide [patchEntries, lookupKey, ih]
          | obj es2 => simp +decide [patchEntries, lookupKey, ih]
        · simp [patchEntries, lookupKey, g1, g2, g3, ih]

theorem refsStableEntries_setKey (es : List (Str × JSONValue)) (k : Str)
    (x : Str) (h : refsStableEntries es = true) (hk : k ≠ "$ref".data) :
    refsStableEntries (setKey es k (JSONValue.str x)) = true := by
  induction es with
  | nil => simp [setKey, refsStableEntries, refsStable, hk]
  | cons e rest ih =>
    obtain ⟨k0, v0⟩ := e
    by_cases hq : k0 = k
    · subst hq
      have hrest : refsStableEntries rest = true := by
        cases v0 <;>
          (simp only [refsStableEntries, Bool.and_eq_true] at h
           exact h.2)
      simp [setKey, refsStableEntries, refsStable, hk, hrest]
    · rw [setKey, if_neg hq]
      cases v0 <;>
        (simp only [refsStableEntries, Bool.and_eq_true] at h ⊢
         exact ⟨h.1, ih h.2⟩)

/-- Counterexample to C4: a `$ref` holding two `.spec.yml` occurrences is
rewritten again by a second pass, so patching twice differs from patching
once. -/
theorem claim_C4_counterexample :
    patchSchema "1.0.0".data "a.jsonschema.json".data
        [("$ref".data, JSONValue.str "a.spec.yml.spec.yml".data)]
      = .ok [("$ref".data, JSONValue.str "a.jsonschema.json.spec.yml".data),
          ("$schema".data, JSONValue.str dialect),
          ("$id".data, JSONValue.str (schemaID "1.0.0".data
            "a.jsonschema.json".data))]
    ∧ patchSchema "1.0.0".data "a.jsonschema.json".data
        [("$ref".data, JSONValue.str "a.jsonschema.json.spec.yml".data),
          ("$schema".data, JSONValue.str dialect),
          ("$id".data, JSONValue.str (schemaID "1.0.0".data
            "a.jsonschema.json".data))]
      = .ok [("$ref".data,
            JSONValue.str "a.jsonschema.json.jsonschema.json".data),
          ("$schema".data, JSONValue.str dialect),
          ("$id".data, JSONValue.str (schemaID "1.0.0".data
            "a.jsonschema.json".data))]
    ∧ "a.jsonschema.json.jsonschema.json".data
        ≠ "a.jsonschema.json.spec.yml".data :=
  ⟨rfl, rfl, by decide⟩

/-- C4 as amended: patching is idempotent for every raw spec body in
which each `$ref` string is fully rewritten by one pass (no `.spec.yml`
occurrence remains after the first is replaced; in particular any body
whose `$ref` strings contain at most one occurrence). -/
theorem claim_C4_patch_idempotent (version relativePath : Str)
    (spec out : List (Str × JSONValue))
    (hstable : refsStableEntries spec = true)
    (h : patchSchema version relativePath spec = .ok out) :
    patchSchema version relativePath out = .ok out := by
  unfold patchSchema at h ⊢
  rw [patchEntriesE_ok] at h
  injection h with h
  have hstable2 : refsStableEntries (setKey (setKey spec "$schema".data
      (.str dialect)) "$id".data
      (.str (schemaID version relativePath))) = true :=
    refsStableEntries_setKey _ _ _
      (refsStableEntries_setKey _ _ _ hstable (by decide)) (by decide)
  have hsch : lookupKey out "$schema".data
      = some (JSONValue.str dialect) := by
    rw [← h, lookupKey_patchEntries_other _ _ _ (by decide) (by decide)
      (by decide), lookupKey_setKey, if_neg (by decide), lookupKey_setKey,
      if_pos rfl]
    rfl
  have hid : lookupKey out "$id".data
      = some (JSONValue.str (schemaID version relativePath)) := by
    rw [← h, lookupKey_patchEntries_id_root, lookupKey_setKey, if_pos rfl]
  rw [setKey_self out "$schema".data (JSONValue.str dialect) hsch,
    setKey_self out "$id".data _ hid, patchEntriesE_ok, ← h,
    patchEntries_idem _ _ hstable2]

/-- Witness for C4 at a concrete stable document. -/
theorem claim_C4_witness :
    patchSchema "1.0.0".data "m.jsonschema.json".data
        ((patchSchema "1.0.0".data "m.jsonschema.json".data
          [("$ref".data, JSONValue.str "x.spec.yml#/a^b".data)]).toOption.getD
          [])
      = .ok ((patchSchema "1.0.0".data "m.jsonschema.json".data
          [("$ref".data,
            JSONValue.str "x.spec.yml#/a^b".data)]).toOption.getD []) :=
  claim_C4_patch_idempotent "1.0.0".data "m.jsonschema.json".data
    [("$ref".data, JSONValue.str "x.spec.yml#/a^b".data)]
    ((patchSchema "1.0.0".data "m.jsonschema.json".data
      [("$ref".data, JSONValue.str "x.spec.yml#/a^b".data)]).toOption.getD [])
    (by decide) (by rfl)
